import Mathlib

/-!
# Verification of the data.js request-orchestration layer

This file gives a shallow embedding in Lean 4 of the core of the `data.js`
request-orchestration library and proves (or refutes) the claims of its
specification.  The repository ships several near-duplicate variants of the
library; the embedding follows the feature-complete variant
(`src/unnamed/part_000`), which is the variant the specification describes
(it alone has `encodeURIComponent` in `parseUrl`, the `parse`/`extract`/
`cacheKey` options, the recency-refreshing `cacheGet`, and the in-flight
guard in `poll`).  Source line references below are into that file.

Modelling conventions:
* JavaScript values are the inductive `JSValue`; numbers and bigints are
  modelled as integers (no claim depends on float formatting).
* A JavaScript `Map` is an insertion-ordered association list (`JsMap`):
  `Map.prototype.set` on an existing key updates the value in place and
  keeps the key's position in iteration order, `delete` removes it, and
  `keys().next().value` is the head of the list.
* Time (`Date.now()`) is an explicit `Nat` parameter.
* Asynchrony: the event loop is single threaded, so a request is modelled
  as a begin phase (cache probe, dedupe probe, dispatch) and a settle phase
  (the body of the async IIFE together with its `finally` block); a thrown
  JavaScript exception is an `Except.error` that the engine's `catch`
  converts into a plain value.
-/

namespace DataJs

/-- JavaScript values as consumed by `stableStringify` (src/unnamed/part_000,
lines 27-49).  `vcircular` stands for an object reference already present in
the `seen` set of the walk, which the source serializes as the fixed sentinel
string; object fields are kept in insertion order. -/
inductive JSValue where
  | vnull
  | vundef
  | vbool (b : Bool)
  | vnum (n : Int)
  | vstr (s : String)
  | vbig (n : Int)
  | vdate (iso : String)
  | varr (elems : List JSValue)
  | vobj (fields : List (String × JSValue))
  | vcircular
deriving Repr

namespace JSValue

/-- Whether a value is the JavaScript `undefined` (used by the
`v[k] !== undefined` filter in `stableStringify`). -/
def isUndef : JSValue → Bool
  | .vundef => true
  | _ => false

end JSValue

/-- Lower-case hexadecimal digit, as produced by `JSON.stringify` unicode
escapes. -/
def hexLower (n : Nat) : Char :=
  if n < 10 then Char.ofNat (48 + n) else Char.ofNat (87 + n)

/-- One character of a JSON string literal, following `JSON.stringify`
escaping rules for strings. -/
def jsonEscapeChar (c : Char) : String :=
  if c = '"' then "\\\""
  else if c = '\\' then "\\\\"
  else if c = '\x08' then "\\b"
  else if c = '\x0c' then "\\f"
  else if c = '\n' then "\\n"
  else if c = '\r' then "\\r"
  else if c = '\t' then "\\t"
  else if c.toNat < 32 then
    "\\u00" ++ String.mk [hexLower (c.toNat / 16), hexLower (c.toNat % 16)]
  else String.singleton c

/-- `JSON.stringify` applied to a string. -/
def jsonQuote (s : String) : String :=
  "\"" ++ String.join (s.toList.map jsonEscapeChar) ++ "\""

mutual

/-- The `walk` closure of `stableStringify` (src/unnamed/part_000, lines
29-47).  Object fields are serialized in place and then filtered and sorted
by key, which agrees with the source's
`Object.keys(v).filter(k => v[k] !== undefined).sort()` followed by a lookup
of each key, because JavaScript object keys are unique.  `Array.prototype.sort`
with the default comparator is modelled by a stable sort on the keys
(`insertionSort` by string order). -/
def jsWalk : JSValue → String
  | .vnull => "null"
  | .vstr s => jsonQuote s
  | .vnum n => toString n
  | .vbool b => if b then "true" else "false"
  | .vbig n => jsonQuote (toString n)
  | .vundef => "null"
  | .vdate iso => jsonQuote iso
  | .varr xs => "[" ++ String.intercalate "," (jsWalkList xs) ++ "]"
  | .vcircular => "\"[Circular]\""
  | .vobj kvs =>
      let entries := jsWalkEntries kvs
      let kept := entries.filter (fun e => !e.2.2)
      let sorted := kept.insertionSort (fun a b => a.1 ≤ b.1)
      let parts := sorted.map (fun e => jsonQuote e.1 ++ ":" ++ e.2.1)
      "\x7b" ++ String.intercalate "," parts ++ "\x7d"

/-- Serialize every element of an array. -/
def jsWalkList : List JSValue → List String
  | [] => []
  | v :: rest => jsWalk v :: jsWalkList rest

/-- Serialize every field of an object, remembering whether the field value
was `undefined` (such fields are filtered out before sorting). -/
def jsWalkEntries : List (String × JSValue) → List (String × String × Bool)
  | [] => []
  | (k, v) :: rest => (k, jsWalk v, v.isUndef) :: jsWalkEntries rest

end

/-- `stableStringify` (src/unnamed/part_000, lines 27-49): canonical
serialization used for cache keys. -/
def stableStringify (value : JSValue) : String := jsWalk value

/-- A JavaScript `Map` with string keys, modelled as an insertion-ordered
association list with unique keys.  `Map.prototype.set` on a present key
updates the value in place (iteration order unchanged); on an absent key it
appends at the freshest end.  `Map.prototype.delete` removes the key;
`map.keys().next().value` is the head. -/
abbrev JsMap (β : Type) : Type := List (String × β)

/-- `Map.prototype.get` (first binding for the key). -/
def mapGet (m : JsMap β) (key : String) : Option β :=
  (m.find? (fun p => p.1 == key)).map (fun p => p.2)

/-- `Map.prototype.set`. -/
def mapSet (m : JsMap β) (key : String) (v : β) : JsMap β :=
  if m.any (fun p => p.1 == key) then
    m.map (fun p => if p.1 == key then (key, v) else p)
  else m ++ [(key, v)]

/-- `Map.prototype.delete`. -/
def mapDelete (m : JsMap β) (key : String) : JsMap β :=
  m.filter (fun p => p.1 != key)

/-- `map.keys().next().value`: the oldest-inserted key. -/
def firstKey (m : JsMap β) : Option String :=
  m.head?.map (fun p => p.1)

/-- `CACHE_CONFIG` (src/unnamed/part_000, line 16). -/
def CACHE_TTL : Nat := 5 * 60 * 1000

/-- `CACHE_CONFIG.maxSize` (src/unnamed/part_000, line 16). -/
def CACHE_MAXSIZE : Nat := 100

/-- A cache entry (`{ value, expiry }`). -/
structure CacheEntry (α : Type) where
  value : α
  expiry : Nat
deriving Repr, DecidableEq

/-- `cacheGet` (src/unnamed/part_000, lines 92-102).  `Date.now()` is the
explicit `now`; the returned pair is (result, updated store).  On a fresh hit
the source deletes and re-inserts the entry, moving it to the freshest end. -/
def cacheGet (store : JsMap (CacheEntry α)) (key : String) (now : Nat) :
    Option α × JsMap (CacheEntry α) :=
  match mapGet store key with
  | none => (none, store)
  | some item =>
    if item.expiry < now then (none, mapDelete store key)
    else (some item.value, mapSet (mapDelete store key) key item)

/-- `cacheSet` (src/unnamed/part_000, lines 104-110).  When the store is at
capacity the single oldest entry is deleted before inserting; the store's
`size` is its length (keys are unique). -/
def cacheSet (store : JsMap (CacheEntry α)) (key : String) (value : α)
    (ttl : Nat) (now : Nat) (maxSize : Nat := CACHE_MAXSIZE) :
    JsMap (CacheEntry α) :=
  let store :=
    if maxSize ≤ store.length then
      match firstKey store with
      | some oldest => mapDelete store oldest
      | none => store
    else store
  mapSet store key ⟨value, now + ttl⟩

/-- Arguments of `makeKey` (src/unnamed/part_000, lines 87-90). -/
structure KeyArgs where
  name : String
  method : String
  fullUrl : Option String := none
  params : Option JSValue := none

/-- `makeKey` (src/unnamed/part_000, lines 87-90): the request/cache key. -/
def makeKey (a : KeyArgs) : String :=
  match a.fullUrl with
  | some u => a.method ++ "::" ++ a.name ++ "::" ++ u
  | none => a.method ++ "::" ++ a.name ++ "::" ++ stableStringify (a.params.getD (.vobj []))

/-- A JavaScript exception as it travels through the engine.  `thrown` is a
`new Error(getErrorMessage(data))` raised on an HTTP or application error;
the message value is kept unstringified. -/
inductive JsError where
  | fetchReject (message : String)
  | parseFailure (message : String)
  | thrown (message : JSValue)
deriving Repr

/-- The observable part of a `fetch` `Response`: `bodyJson` is the result of
`JSON.parse` on the body text (`none` when parsing throws). -/
structure Response where
  ok : Bool
  status : Nat
  contentType : String
  body : String
  bodyJson : Option JSValue
deriving Repr

/-- How the network call settled: `fetch` (or the body read) rejected —
covering network failure, abort and timeout — or resolved to a response. -/
inductive FetchOutcome where
  | reject (e : JsError)
  | resolve (r : Response)
deriving Repr

/-- The `parse` option: `undefined` (auto), `"json"`, or `"text"`.  A
caller-supplied parse function is outside the model. -/
inductive ParseMode where
  | auto
  | json
  | text
deriving Repr, DecidableEq

/-- The `extract` option: `undefined` (the built-in `extractData`) or the
legacy `"raw"` passthrough.  A caller-supplied extractor is outside the
model. -/
inductive ExtractMode where
  | standard
  | raw
deriving Repr, DecidableEq

/-- JavaScript property access `v[k]` on the embedded values: only objects
carry fields; everything else yields `undefined` (here `none`). -/
def getField : JSValue → String → Option JSValue
  | .vobj kvs, k => (kvs.find? (fun p => p.1 == k)).map (fun p => p.2)
  | _, _ => none

/-- JavaScript truthiness of the embedded values. -/
def truthy : JSValue → Bool
  | .vnull => false
  | .vundef => false
  | .vbool b => b
  | .vnum n => n != 0
  | .vstr s => s ≠ ""
  | .vbig n => n != 0
  | .vdate _ => true
  | .varr _ => true
  | .vobj _ => true
  | .vcircular => true

/-- Whether `pat` occurs as a contiguous run inside `s`. -/
def listIsInfix (s pat : List Char) : Bool :=
  pat.isPrefixOf s ||
    match s with
    | [] => false
    | _ :: t => listIsInfix t pat

/-- `s.includes(pat)` on strings. -/
def containsSubstr (s pat : String) : Bool :=
  listIsInfix s.toList pat.toList

/-- `parseResponse` (src/unnamed/part_000, lines 240-260): status 204 and an
empty body give `null`; `"text"` returns the body text; `"json"` demands a
valid JSON body; otherwise a JSON content type demands valid JSON and any
other content type tries JSON and falls back to the raw text. -/
def parseResponse (r : Response) (parse : ParseMode) : Except JsError JSValue :=
  if r.status == 204 then .ok .vnull
  else if r.body == "" then .ok .vnull
  else
    match parse with
    | .text => .ok (.vstr r.body)
    | .json =>
      match r.bodyJson with
      | some v => .ok v
      | none => .error (.parseFailure "Unexpected token")
    | .auto =>
      if containsSubstr r.contentType "application/json" || containsSubstr r.contentType "+json" then
        match r.bodyJson with
        | some v => .ok v
        | none => .error (.parseFailure "Unexpected token")
      else
        match r.bodyJson with
        | some v => .ok v
        | none => .ok (.vstr r.body)

/-- The recognized success sentinels for a `code` field (`"SUCCESS"`,
`"success"`, `200`, `0`); strict equality, so only strings and numbers
qualify. -/
def isCodeSuccess : JSValue → Bool
  | .vstr s => s == "SUCCESS" || s == "success"
  | .vnum n => n == 200 || n == 0
  | _ => false

/-- `isError` (src/unnamed/part_000, lines 122-139).  `typeof data ===
'object'` also holds for arrays, dates and circular references, but field
access on them yields `undefined` here, matching the source. -/
def isError (r : Response) (data : JSValue) : Bool :=
  if !r.ok then true
  else
    let objLike :=
      match data with
      | .vobj _ => true
      | .varr _ => true
      | .vdate _ => true
      | .vcircular => true
      | _ => false
    if objLike && truthy data then
      if truthy ((getField data "error").getD .vundef) then true
      else if (match getField data "success" with
               | some (.vbool false) => true
               | _ => false) then true
      else if (match getField data "result" with
               | some (.vbool false) => true
               | _ => false) then true
      else if (match getField data "status" with
               | some (.vstr s) => s == "error" || s == "fail"
               | _ => false) then true
      else
        let code := (getField data "code").getD .vundef
        truthy code && !isCodeSuccess code
    else false

/-- The envelope fields probed by `extractData`, in priority order. -/
def extractFields : List String :=
  ["data", "result", "results", "items", "records", "content", "rows", "list", "payload", "body"]

/-- First field of `data` (in the given order) that is present and not
`undefined` (`data[field] !== undefined`). -/
def probeFields (data : JSValue) : List String → Option JSValue
  | [] => none
  | f :: rest =>
    match getField data f with
    | some v => if v.isUndef then probeFields data rest else some v
    | none => probeFields data rest

/-- `extractData` (src/unnamed/part_000, lines 141-150). -/
def extractData (data : JSValue) : JSValue :=
  match data with
  | .varr _ => data
  | .vobj _ =>
    match probeFields data extractFields with
    | some v => v
    | none =>
      match getField data "response" with
      | some resp =>
        match getField resp "data" with
        | some d => if truthy d then d else data
        | none => data
      | none => data
  | _ => data

/-- `applyExtract` (src/unnamed/part_000, lines 175-180) restricted to the
modelled extract modes. -/
def applyExtract (json : JSValue) : ExtractMode → JSValue
  | .standard => extractData json
  | .raw => json

/-- `String(v)` on a single array element as used by `Array.prototype.join`
(`null`/`undefined` become empty); nested arrays and objects are
approximated by shallow renderings — this only affects error-message
text. -/
def joinElemString : JSValue → String
  | .vnull => ""
  | .vundef => ""
  | .vstr s => s
  | .vnum n => toString n
  | .vbig n => toString n
  | .vbool b => if b then "true" else "false"
  | .vdate iso => iso
  | .varr _ => ""
  | .vobj _ => "[object Object]"
  | .vcircular => "[object Object]"

/-- The `data.errors?.length` fallback of `getErrorMessage`: a nonempty
`errors` array is joined with `', '`. -/
def errorsFallback (data : JSValue) : JSValue :=
  match getField data "errors" with
  | some (.varr (x :: xs)) => .vstr (String.intercalate ", " ((x :: xs).map joinElemString))
  | _ => .vstr "Request failed"

/-- The `data.msg` fallback of `getErrorMessage`. -/
def msgFallback (data : JSValue) : JSValue :=
  match getField data "msg" with
  | some m => if truthy m then m else errorsFallback data
  | none => errorsFallback data

/-- The `data.message` fallback of `getErrorMessage`. -/
def messageFallback (data : JSValue) : JSValue :=
  match getField data "message" with
  | some m => if truthy m then m else msgFallback data
  | none => msgFallback data

/-- `getErrorMessage` (src/unnamed/part_000, lines 182-191): returns the
selected message value unchanged (the engine's `new Error(...)` would
stringify it). -/
def getErrorMessage (data : JSValue) : JSValue :=
  if !truthy data then .vstr "Request failed"
  else
    match data with
    | .vstr s => .vstr s
    | _ =>
      match getField data "error" with
      | some (.vstr s) => .vstr s
      | errField =>
        let nested :=
          match errField with
          | some e => getField e "message"
          | none => none
        match nested with
        | some m => if truthy m then m else messageFallback data
        | none => messageFallback data

/-- `messageState` (src/unnamed/part_000, line 21). -/
structure MessageState where
  error : Option JsError := none
  success : Option JSValue := none
deriving Repr

/-- The process-wide mutable registries touched by one request. -/
structure EngineState where
  dataStore : JsMap JSValue := []
  cacheStore : JsMap (CacheEntry JSValue) := []
  pendingRequests : JsMap Nat := []
  messageState : MessageState := {}
deriving Repr

/-- The `meta` argument of `request` (src/unnamed/part_000, lines 263-271)
restricted to the modelled options; in-flight promises are identified by
`Nat` ids. -/
structure RequestMeta where
  method : String := "GET"
  dedupe : Bool := true
  extract : ExtractMode := .standard
  parse : ParseMode := .auto
  cacheKey : Option String := none
  cacheTTL : Nat := CACHE_TTL
deriving Repr

/-- The key under which a request is cached and de-duplicated
(src/unnamed/part_000, line 274). -/
def requestKey (name : String) (params : Option JSValue) (meta : RequestMeta) : String :=
  meta.cacheKey.getD (makeKey { name := name, method := meta.method, params := params })

/-- How the begin phase of `request` answers the caller: straight from the
cache (optionally triggering a stale-while-revalidate background refresh),
by joining an already-pending identical request, or by starting a new
physical network call with a fresh promise id. -/
inductive BeginResult where
  | cached (v : JSValue) (swrRefresh : Bool)
  | shared (pid : Nat)
  | started (pid : Nat)
deriving Repr

/-- The dedupe probe and dispatch of `request` (src/unnamed/part_000, lines
287-295 and 330): with dedupe on, a pending identical request is joined,
otherwise the fresh promise is registered under the key. -/
def requestDispatch (key : String) (meta : RequestMeta) (st : EngineState)
    (freshPid : Nat) : BeginResult × EngineState :=
  if meta.dedupe then
    match mapGet st.pendingRequests key with
    | some pid => (.shared pid, st)
    | none =>
      (.started freshPid,
        { st with pendingRequests := mapSet st.pendingRequests key freshPid })
  else (.started freshPid, st)

/-- The begin phase of `request` (src/unnamed/part_000, lines 262-295):
reset the message state, probe the cache when `useCache` is set, then probe
the pending-request registry.  `now` is `Date.now()`. -/
def requestBegin (name : String) (useCache : Bool) (params : Option JSValue)
    (useSWR : Bool) (meta : RequestMeta) (st : EngineState) (now : Nat)
    (freshPid : Nat) : BeginResult × EngineState :=
  let key := requestKey name params meta
  let st := { st with messageState := {} }
  if useCache then
    match cacheGet st.cacheStore key now with
    | (some v, store') => (.cached v useSWR, { st with cacheStore := store' })
    | (none, store') => requestDispatch key meta { st with cacheStore := store' } freshPid
  else requestDispatch key meta st freshPid

/-- The try-block of the request body (src/unnamed/part_000, lines 296-310):
awaiting `fn`, parsing, running the after-interceptor (whose failures are
swallowed and which does not affect the result), classifying, and
extracting.  An `Except.error` is a thrown JavaScript exception. -/
def requestCompute (outcome : FetchOutcome) (meta : RequestMeta) :
    Except JsError (JSValue × JSValue) :=
  match outcome with
  | .reject e => .error e
  | .resolve r =>
    match parseResponse r meta.parse with
    | .error e => .error e
    | .ok data =>
      if isError r data then .error (.thrown (getErrorMessage data))
      else .ok (applyExtract data meta.extract, data)

/-- The settle phase of the request body (src/unnamed/part_000, lines
296-328): the success updates, the catch-block that converts any thrown
error into a `null` return plus `messageState.error`, and the finally-block
cleanup of the pending registry.  The middle component is the error recorded
for this call in `errorByPromise` (`none` on success).  This function is
total: no exception propagates to the caller. -/
def requestSettle (name : String) (useCache : Bool) (meta : RequestMeta)
    (outcome : FetchOutcome) (st : EngineState) (key : String) (now : Nat) :
    JSValue × Option JsError × EngineState :=
  match requestCompute outcome meta with
  | .ok (result, data) =>
    let st := { st with dataStore := mapSet st.dataStore name result }
    let st :=
      if useCache then
        { st with cacheStore := cacheSet st.cacheStore key result meta.cacheTTL now }
      else st
    let st :=
      match data with
      | .vobj _ =>
        match getField data "message" with
        | some m =>
          if truthy m then
            { st with messageState := { st.messageState with success := some m } }
          else st
        | none => st
      | _ => st
    let st :=
      if meta.dedupe then { st with pendingRequests := mapDelete st.pendingRequests key }
      else st
    (result, none, st)
  | .error e =>
    let st := { st with messageState := { st.messageState with error := some e } }
    let st :=
      if meta.dedupe then { st with pendingRequests := mapDelete st.pendingRequests key }
      else st
    (.vnull, some e, st)

/-- The flags with which an endpoint callable invokes `request`. -/
structure EndpointCallConfig where
  method : String
  useCache : Bool
  useSWR : Bool
  dedupe : Bool
deriving Repr, DecidableEq

/-- The registration options relevant to cache/dedupe behavior. -/
structure DefineOptions where
  cache : Option String := none
  swr : Bool := false
  dedupe : Option Bool := none
deriving Repr

/-- How `get` (src/unnamed/part_000, lines 361-392) configures its callable:
cache on unless `cache: 'no-cache'`, dedupe on unless overridden. -/
def getEndpointConfig (opt : DefineOptions) : EndpointCallConfig :=
  { method := "GET"
    useCache := (opt.cache.getD "default") ≠ "no-cache"
    useSWR := opt.swr
    dedupe := opt.dedupe.getD true }

/-- How `del` (src/unnamed/part_000, lines 436-462) configures its callable:
`request` is invoked with `useCache = false` and dedupe on unless
overridden. -/
def delEndpointConfig (opt : DefineOptions) : EndpointCallConfig :=
  { method := "DELETE"
    useCache := false
    useSWR := false
    dedupe := opt.dedupe.getD true }

/-- How `post`/`put`/`patch` (via `makeWriteMethod`, src/unnamed/part_000,
lines 399-434) configure their callables: no cache, no dedupe. -/
def writeEndpointConfig (method : String) : EndpointCallConfig :=
  { method := method
    useCache := false
    useSWR := false
    dedupe := false }

/-- The `meta` an endpoint callable passes to `request` (get and del supply
an explicit `cacheKey` derived from the resolved URL). -/
def callMeta (cfg : EndpointCallConfig) (key : Option String) : RequestMeta :=
  { method := cfg.method
    dedupe := cfg.dedupe
    cacheKey := key }

/-- How one `fn()` call inside `withRetry` or `poll` settles: the promise
rejects (`fn` threw or the promise was rejected), or it resolves to a value
with the error recorded for that very promise in `errorByPromise` (`none`
when nothing, or the success marker `null`, was recorded for it). -/
inductive AttemptOutcome where
  | throws (e : JsError)
  | settles (result : JSValue) (recorded : Option JsError)

/-- One attempt of the `withRetry` loop (src/unnamed/part_000, lines
549-556): a resolved `null` whose promise has a recorded error is
re-thrown; anything else — including a `null` with no recorded error — is
returned as success. -/
def attemptEval (a : AttemptOutcome) : Except JsError JSValue :=
  match a with
  | .throws e => .error e
  | .settles r rec =>
    match r, rec with
    | .vnull, some e => .error e
    | _, _ => .ok r

/-- The `withRetry` loop (src/unnamed/part_000, lines 544-566) from a given
attempt index with `remaining` further attempts allowed: on failure with
attempts left it sleeps `delay * backoff ^ attempt` and retries; once
exhausted it re-raises the last error.  Returns the outcome together with
the list of delays slept, in order. -/
def withRetryFrom (outcomes : Nat → AttemptOutcome) (delay backoff : Nat) :
    Nat → Nat → Except JsError JSValue × List Nat
  | attempt, 0 => (attemptEval (outcomes attempt), [])
  | attempt, remaining + 1 =>
    match attemptEval (outcomes attempt) with
    | .ok r => (.ok r, [])
    | .error _ =>
      let rest := withRetryFrom outcomes delay backoff (attempt + 1) remaining
      (rest.1, delay * backoff ^ attempt :: rest.2)

/-- `withRetry(fn, { retries, delay, backoff })` (src/unnamed/part_000,
lines 544-566); `outcomes i` is how the i-th `fn()` call settles. -/
def withRetry (outcomes : Nat → AttemptOutcome) (retries : Nat := 3)
    (delay : Nat := 1000) (backoff : Nat := 2) :
    Except JsError JSValue × List Nat :=
  withRetryFrom outcomes delay backoff 0 retries

/-- The per-poller state of `poll` (src/unnamed/part_000, lines 574-595):
the `inFlight` guard of `fetchData`, plus — for stating the invariant — the
number of this poller's endpoint invocations currently in flight. -/
structure PollState where
  inFlight : Bool
  active : Nat
deriving Repr, DecidableEq

/-- Events of one polling loop: an interval tick firing `fetchData`, or the
awaited endpoint invocation settling (running the `finally` that clears
`inFlight`). -/
inductive PollEvent where
  | tick
  | settle
deriving Repr, DecidableEq

/-- One event of `fetchData` (src/unnamed/part_000, lines 577-595): a tick
finding `inFlight` set returns immediately without invoking the endpoint
(the check and the set are atomic — no await separates them); otherwise it
sets the guard and starts one invocation.  A settle runs the `finally`,
clearing the guard and finishing the invocation. -/
def pollStep (s : PollState) : PollEvent → PollState
  | .tick => if s.inFlight then s else { inFlight := true, active := s.active + 1 }
  | .settle => if s.active = 0 then s else { inFlight := false, active := s.active - 1 }

/-- A polling loop run from the initial state (fresh `state` object, no
invocation in flight). -/
def pollRun (evs : List PollEvent) : PollState :=
  evs.foldl pollStep ⟨false, 0⟩

/-- An ECMAScript data property descriptor; the property value (an endpoint
callable) is modelled by an opaque function id. -/
structure PropertyDesc where
  value : Nat
  writable : Bool := false
  enumerable : Bool := true
  configurable : Bool := false
deriving Repr, DecidableEq

/-- `Object.defineProperty` for data descriptors on an extensible plain
object (the clauses of ES ValidateAndApplyPropertyDescriptor relevant
here): an absent key is created; a configurable property may be redefined;
a non-configurable writable property admits value updates with unchanged
attributes; a non-configurable non-writable property admits only the
identical descriptor — anything else throws a TypeError, leaving the object
untouched. -/
def defineProperty (obj : JsMap PropertyDesc) (k : String) (d : PropertyDesc) :
    Except String (JsMap PropertyDesc) :=
  match mapGet obj k with
  | none => .ok (mapSet obj k d)
  | some old =>
    if old.configurable then .ok (mapSet obj k d)
    else if old.writable then
      if d.writable = old.writable && d.enumerable = old.enumerable && !d.configurable then
        .ok (mapSet obj k d)
      else .error "TypeError"
    else if d = old then .ok obj
    else .error "TypeError"

/-- `defineEndpoint` (src/unnamed/part_000, lines 351-353):
`Object.defineProperty(api, name, { value: fn, writable: false,
enumerable: true })` — `configurable` defaults to `false`. -/
def defineEndpoint (api : JsMap PropertyDesc) (name : String) (fnId : Nat) :
    Except String (JsMap PropertyDesc) :=
  defineProperty api name
    { value := fnId, writable := false, enumerable := true, configurable := false }

/-- A character of the regex class `\w`: `[A-Za-z0-9_]`. -/
def isWordChar (c : Char) : Bool :=
  c.isAlpha || c.isDigit || c = '_'

/-- The global matches of `url.match(/:([\w]+)/g)`, in order: each match is
a colon followed by a maximal nonempty run of word characters; scanning
resumes after a match, and a colon not followed by a word character
advances by one. -/
def scanMatches : List Char → List (List Char)
  | [] => []
  | c :: rest =>
    if c = ':' then
      let w := rest.takeWhile isWordChar
      if w.isEmpty then scanMatches rest
      else (':' :: w) :: scanMatches (rest.drop w.length)
    else scanMatches rest
termination_by l => l.length
decreasing_by
  · simp
  · simp only [List.length_cons, List.length_drop]
    omega
  · simp

/-- `String.prototype.replace` with a nonempty string pattern: replaces the
first occurrence only.  (The replacement strings used by `parseUrl` are
percent-encoded and cannot contain `$`, so the special `$`-replacement
patterns cannot arise.) -/
def replaceFirst : List Char → List Char → List Char → List Char
  | [], _, _ => []
  | c :: rest, pat, rep =>
    if pat.isPrefixOf (c :: rest) then rep ++ (c :: rest).drop pat.length
    else c :: replaceFirst rest pat rep

/-- The characters `encodeURIComponent` leaves unescaped: letters, digits,
and `- _ . ! ~ *` together with the apostrophe and the parentheses (codes
45, 95, 46, 33, 126, 42, 39, 40, 41). -/
def isUnreservedURI (c : Char) : Bool :=
  c.isAlpha || c.isDigit || c.toNat ∈ [45, 95, 46, 33, 126, 42, 39, 40, 41]

/-- Upper-case hexadecimal digit (percent-encoding uses upper case). -/
def hexUpper (n : Nat) : Char :=
  if n < 10 then Char.ofNat (48 + n) else Char.ofNat (55 + n)

/-- The UTF-8 encoding of one character, as byte values. -/
def utf8Bytes (c : Char) : List Nat :=
  let n := c.toNat
  if n < 128 then [n]
  else if n < 2048 then [192 + n / 64, 128 + n % 64]
  else if n < 65536 then [224 + n / 4096, 128 + (n / 64) % 64, 128 + n % 64]
  else [240 + n / 262144, 128 + (n / 4096) % 64, 128 + (n / 64) % 64, 128 + n % 64]

/-- `%XX` for one byte (bytes are below 256, so the extra `% 16` on the
high nibble is a no-op that keeps both nibbles syntactically bounded). -/
def percentByte (b : Nat) : List Char :=
  ['%', hexUpper (b / 16 % 16), hexUpper (b % 16)]

/-- The encoding of one character under `encodeURIComponent`. -/
def encodeChar (c : Char) : List Char :=
  if isUnreservedURI c then [c] else (utf8Bytes c).foldr (fun b acc => percentByte b ++ acc) []

/-- `encodeURIComponent`. -/
def encodeURIComponent (s : String) : String :=
  String.mk (s.toList.foldr (fun c acc => encodeChar c ++ acc) [])

/-- `remainingParams[key]` with string-valued parameters (the source applies
`String(...)` to the value before encoding, so values are modelled as the
strings they stringify to); `!== undefined` is `Option.isSome`. -/
def lookupParam (ps : List (String × String)) (k : String) : Option String :=
  (ps.find? (fun p => p.1 == k)).map (fun p => p.2)

/-- `delete remainingParams[key]`. -/
def deleteParam (ps : List (String × String)) (k : String) : List (String × String) :=
  ps.filter (fun p => p.1 != k)

/-- One iteration of the `matches` loop of `parseUrl` (src/unnamed/part_000,
lines 56-62): `key = match.substring(1)`; a defined parameter replaces the
first occurrence of the match text with its encoded value and is deleted. -/
def parseUrlStep (st : List Char × List (String × String)) (m : List Char) :
    List Char × List (String × String) :=
  let key := String.mk (m.drop 1)
  match lookupParam st.2 key with
  | some v => (replaceFirst st.1 m (encodeURIComponent v).toList, deleteParam st.2 key)
  | none => st

/-- The result of `parseUrl`. -/
structure ParsedUrl where
  finalUrl : String
  remainingParams : List (String × String)
deriving Repr, DecidableEq

/-- `parseUrl` (src/unnamed/part_000, lines 51-65). -/
def parseUrl (url : String) (params : List (String × String)) : ParsedUrl :=
  let ms := scanMatches url.toList
  let r := ms.foldl parseUrlStep (url.toList, params)
  ⟨String.mk r.1, r.2⟩

/-- A URL template assembled from a leading literal segment and a list of
(placeholder word, following literal segment) pairs:
`seg₀ :w₁ seg₁ ... :wₙ segₙ`. -/
def tailTemplate : List (List Char × List Char) → List Char
  | [] => []
  | (w, s) :: rest => ':' :: (w ++ s ++ tailTemplate rest)

/-- The whole template `seg₀ :w₁ seg₁ ... :wₙ segₙ`. -/
def assembleTemplate (seg0 : List Char) (parts : List (List Char × List Char)) :
    List Char :=
  seg0 ++ tailTemplate parts

/-- Modelled from the spec: "replaces every `:identifier` placeholder with
the URL-encoded value of the matching key from `params`, consuming that
key; ... Placeholders without a matching key are left unresolved
(pass-through)" — the per-placeholder substitution over the template tail. -/
def resolveTail (params : List (String × String)) :
    List (List Char × List Char) → List Char
  | [] => []
  | (w, s) :: rest =>
    (match lookupParam params (String.mk w) with
     | some v => (encodeURIComponent v).toList
     | none => ':' :: w) ++ s ++ resolveTail params rest

/-- Modelled from the spec: the fully resolved URL for a decomposed
template. -/
def specResolveUrl (seg0 : List Char) (parts : List (List Char × List Char))
    (params : List (String × String)) : List Char :=
  seg0 ++ resolveTail params parts

/-- No colon anywhere in a literal segment. -/
def noColonB (s : List Char) : Bool :=
  s.all (fun c => c != ':')

/-- A nonempty run of word characters (a placeholder name). -/
def wordRunB (w : List Char) : Bool :=
  !w.isEmpty && w.all isWordChar

/-- Nonempty and not starting with a word character. -/
def headNotWordB : List Char → Bool
  | [] => false
  | c :: _ => !isWordChar c

/-- Well-formedness of the template decomposition: placeholder names are
nonempty word runs, literal segments contain no colon, each segment that
follows a placeholder starts with a non-word character (the final segment
may instead be empty). -/
def partsCondB : List (List Char × List Char) → Bool
  | [] => true
  | (w, s) :: rest =>
    wordRunB w && noColonB s &&
    (if rest.isEmpty then (s.isEmpty || headNotWordB s) else headNotWordB s) &&
    partsCondB rest

/-- No placeholder name is a prefix of another (in particular all names are
distinct). -/
def prefixFreeB : List (List Char) → Bool
  | [] => true
  | w :: ws =>
    ws.all (fun w2 => !(w.isPrefixOf w2) && !(w2.isPrefixOf w)) && prefixFreeB ws

/-- A piece of the already-processed prefix of the URL during the
`parseUrl` loop: an encoded replacement value, or a placeholder left in
place. -/
inductive StepKind where
  | encoded (e : List Char)
  | rawWord (w : List Char)

/-- The characters of one processed (placeholder, following-segment)
piece. -/
def stepChars (st : StepKind × List Char) : List Char :=
  (match st.1 with
   | .encoded e => e
   | .rawWord w => ':' :: w) ++ st.2

/-- The characters of the processed prefix after the leading segment. -/
def flatSteps : List (StepKind × List Char) → List Char
  | [] => []
  | st :: rest => stepChars st ++ flatSteps rest

/-- No occurrence of `m` inside `P ++ m` before the final position. -/
def CleanBefore (P m : List Char) : Prop :=
  ∀ a b : List Char, P ++ m = a ++ m ++ b → b = []

/-- The invariant of one processed piece, relative to a later placeholder
name `wstar`: segments and encodings are colon-free, a placeholder left in
place is a word run that `wstar` does not begin, and its following segment
starts with a non-word character. -/
def stepClean (wstar : List Char) (st : StepKind × List Char) : Prop :=
  noColonB st.2 = true ∧
  match st.1 with
  | .encoded e => noColonB e = true
  | .rawWord w => wordRunB w = true ∧ ¬ wstar <+: w ∧ headNotWordB st.2 = true

/-! ## Theorems -/

section JsMapLemmas

variable {β : Type}

theorem mapGet_eq_none_iff (m : JsMap β) (k : String) :
    mapGet m k = none ↔ ∀ p ∈ m, ¬ p.1 = k := by
  simp [mapGet, List.find?_eq_none]

theorem anyKey_iff (m : JsMap β) (k : String) :
    m.any (fun p => p.1 == k) = true ↔ ∃ p ∈ m, p.1 = k := by
  simp [List.any_eq_true]

theorem mapGet_append_single (m : JsMap β) (k : String) (v : β)
    (h : mapGet m k = none) : mapGet (m ++ [(k, v)]) k = some v := by
  simp only [mapGet] at h ⊢
  rcases hf : List.find? (fun p => p.1 == k) m with _ | p
  · rw [List.find?_append, hf]
    simp
  · rw [hf] at h
    simp at h

theorem mapGet_map_update (m : JsMap β) (k : String) (v : β)
    (h : ∃ p ∈ m, p.1 = k) :
    mapGet (m.map (fun p => if p.1 == k then (k, v) else p)) k = some v := by
  induction m with
  | nil => simp at h
  | cons a m ih =>
    by_cases ha : a.1 = k
    · simp [mapGet, ha]
    · have h' : ∃ p ∈ m, p.1 = k := by
        rcases h with ⟨p, hp, hk⟩
        rcases List.mem_cons.mp hp with rfl | hm
        · exact absurd hk ha
        · exact ⟨p, hm, hk⟩
      simpa [mapGet, ha] using ih h'

theorem mapGet_mapSet_self (m : JsMap β) (k : String) (v : β) :
    mapGet (mapSet m k v) k = some v := by
  unfold mapSet
  by_cases h : m.any (fun p => p.1 == k) = true
  · rw [if_pos h]
    exact mapGet_map_update m k v ((anyKey_iff m k).mp h)
  · rw [if_neg h]
    apply mapGet_append_single
    rw [mapGet_eq_none_iff]
    intro p hp hk
    exact h ((anyKey_iff m k).mpr ⟨p, hp, hk⟩)

theorem mapGet_mapDelete_self (m : JsMap β) (k : String) :
    mapGet (mapDelete m k) k = none := by
  rw [mapGet_eq_none_iff]
  intro p hp
  simp only [mapDelete, List.mem_filter] at hp
  simpa using hp.2

theorem mapSet_of_absent (m : JsMap β) (k : String) (v : β)
    (h : mapGet m k = none) : mapSet m k v = m ++ [(k, v)] := by
  rw [mapGet_eq_none_iff] at h
  have hany : m.any (fun p => p.1 == k) = false := by
    rw [Bool.eq_false_iff]
    intro hc
    rcases (anyKey_iff m k).mp hc with ⟨p, hp, hk⟩
    exact h p hp hk
  simp [mapSet, hany]

theorem keys_mapSet_of_present (m : JsMap β) (k : String) (v : β)
    (h : mapGet m k ≠ none) : (mapSet m k v).map Prod.fst = m.map Prod.fst := by
  have hany : m.any (fun p => p.1 == k) = true := by
    by_contra hc
    apply h
    rw [mapGet_eq_none_iff]
    intro p hp hk
    exact hc ((anyKey_iff m k).mpr ⟨p, hp, hk⟩)
  simp only [mapSet, hany, if_true, List.map_map]
  apply List.map_congr_left
  intro p _
  by_cases hp : p.1 = k <;> simp [hp]

end JsMapLemmas

/-- Claim C4 (amended): for every key cached with TTL `t` at time `s`, a
cache read at any time `r ≤ s + t` returns the cached value; a read at any
time strictly after `s + t` is a miss that removes the entry at that read;
and no entry whose expiry is *strictly less than* the current time is ever
returned (an entry is still returned at the exact instant `now = expiry`). -/
theorem c4_cache_ttl_amended :
    (∀ (α : Type) (store : JsMap (CacheEntry α)) (k : String) (v : α)
        (t s r maxSize : Nat), r ≤ s + t →
      (cacheGet (cacheSet store k v t s maxSize) k r).1 = some v) ∧
    (∀ (α : Type) (store : JsMap (CacheEntry α)) (k : String) (v : α)
        (t s r maxSize : Nat), s + t < r →
      (cacheGet (cacheSet store k v t s maxSize) k r).1 = none ∧
      mapGet (cacheGet (cacheSet store k v t s maxSize) k r).2 k = none) ∧
    (∀ (α : Type) (store : JsMap (CacheEntry α)) (k : String) (now : Nat)
        (v : α), (cacheGet store k now).1 = some v →
      ∃ e, mapGet store k = some e ∧ e.value = v ∧ now ≤ e.expiry) := by
  refine ⟨?_, ?_, ?_⟩
  · intro α store k v t s r maxSize hr
    have hget : mapGet (cacheSet store k v t s maxSize) k = some ⟨v, s + t⟩ := by
      unfold cacheSet
      exact mapGet_mapSet_self _ _ _
    simp [cacheGet, hget, Nat.not_lt.mpr hr]
  · intro α store k v t s r maxSize hr
    have hget : mapGet (cacheSet store k v t s maxSize) k = some ⟨v, s + t⟩ := by
      unfold cacheSet
      exact mapGet_mapSet_self _ _ _
    refine ⟨?_, ?_⟩
    · simp [cacheGet, hget, hr]
    · simp [cacheGet, hget, hr, mapGet_mapDelete_self]
  · intro α store k now v hv
    cases hget : mapGet store k with
    | none => simp [cacheGet, hget] at hv
    | some e =>
      by_cases h : e.expiry < now
      · simp [cacheGet, hget, h] at hv
      · simp only [cacheGet, hget, if_neg h] at hv
        exact ⟨e, rfl, Option.some.inj hv, Nat.not_lt.mp h⟩

/-- Witness for C4: with TTL 5 set at time 0, a read at time 3 hits, a read
at time 9 misses and removes the entry, and the hit at time 3 satisfies the
expiry bound. -/
theorem c4_cache_ttl_amended_witness :
    (3 ≤ 0 + 5 ∧
      (cacheGet (cacheSet ([] : JsMap (CacheEntry Nat)) "k" 7 5 0 100) "k" 3).1 = some 7) ∧
    (0 + 5 < 9 ∧
      (cacheGet (cacheSet ([] : JsMap (CacheEntry Nat)) "k" 7 5 0 100) "k" 9).1 = none) ∧
    ∃ e, mapGet (cacheSet ([] : JsMap (CacheEntry Nat)) "k" 7 5 0 100) "k" = some e ∧
      e.value = 7 ∧ 3 ≤ e.expiry :=
  ⟨⟨by decide, c4_cache_ttl_amended.1 Nat [] "k" 7 5 0 3 100 (by decide)⟩,
   ⟨by decide, (c4_cache_ttl_amended.2.1 Nat [] "k" 7 5 0 9 100 (by decide)).1⟩,
   c4_cache_ttl_amended.2.2 Nat (cacheSet [] "k" 7 5 0 100) "k" 3 7
     (c4_cache_ttl_amended.1 Nat [] "k" 7 5 0 3 100 (by decide))⟩

/-- Counterexample to claim C4 as stated: at the exact instant `now = s + t`
the entry's expiry is `≤ now`, yet `cacheGet` still returns the cached value
(the source misses only when `Date.now() > item.expiry`, not `>=`). -/
theorem c4_counterexample :
    (cacheGet (cacheSet ([] : JsMap (CacheEntry Nat)) "k" 7 5 0 100) "k" 5).1 = some 7 ∧
    mapGet (cacheSet ([] : JsMap (CacheEntry Nat)) "k" 7 5 0 100) "k" =
      some ⟨7, 5⟩ ∧
    (CacheEntry.mk 7 5).expiry ≤ 5 := by
  refine ⟨by decide, by decide, by decide⟩

/-- Claim C5 (amended): re-inserting an existing key with `cacheSet` when
the store is below capacity updates the value in place and *preserves* the
key's position in the insertion/eviction order (it does not move it to the
freshest position); it is a fresh `cacheGet` read that moves the key to the
freshest (last-evicted) position. -/
theorem c5_reinsert_amended :
    (∀ (α : Type) (store : JsMap (CacheEntry α)) (k : String) (v : α)
        (t s maxSize : Nat), mapGet store k ≠ none → store.length < maxSize →
      (cacheSet store k v t s maxSize).map Prod.fst = store.map Prod.fst) ∧
    (∀ (α : Type) (store : JsMap (CacheEntry α)) (k : String) (now : Nat)
        (e : CacheEntry α), mapGet store k = some e → now ≤ e.expiry →
      (cacheGet store k now).2 = mapDelete store k ++ [(k, e)]) := by
  constructor
  · intro α store k v t s maxSize hpresent hlen
    unfold cacheSet
    simp only [Nat.not_le.mpr hlen, if_false]
    exact keys_mapSet_of_present store k _ hpresent
  · intro α store k now e hget hfresh
    simp only [cacheGet, hget, if_neg (Nat.not_lt.mpr hfresh)]
    exact mapSet_of_absent (mapDelete store k) k e (mapGet_mapDelete_self store k)

/-- Witness for C5 (amended): on the two-entry store `[a, b]`, re-inserting
`a` leaves the key order `[a, b]` unchanged, while a fresh read of `a` moves
it to the freshest end, giving `[b, a]`. -/
theorem c5_reinsert_amended_witness :
    (cacheSet [("a", ⟨0, 10⟩), ("b", ⟨0, 10⟩)] "a" (1 : Nat) 10 0 100).map Prod.fst =
      [("a", (⟨0, 10⟩ : CacheEntry Nat)), ("b", ⟨0, 10⟩)].map Prod.fst ∧
    (cacheGet [("a", ⟨0, 10⟩), ("b", ⟨0, 10⟩)] "a" 3).2 =
      mapDelete [("a", (⟨0, 10⟩ : CacheEntry Nat)), ("b", ⟨0, 10⟩)] "a" ++ [("a", ⟨0, 10⟩)] :=
  ⟨c5_reinsert_amended.1 Nat [("a", ⟨0, 10⟩), ("b", ⟨0, 10⟩)] "a" 1 10 0 100
      (by decide) (by decide),
   c5_reinsert_amended.2 Nat [("a", ⟨0, 10⟩), ("b", ⟨0, 10⟩)] "a" 3 ⟨0, 10⟩
      (by decide) (by decide)⟩

/-- Counterexample to claim C5 as stated: with store `[a, b]` (below
capacity), re-inserting `a` leaves `a` at the *oldest* position, so the
oldest-first eviction performed by a subsequent full-store insert evicts
`a`, not `b` — `a` is not "the last of the store's keys to be evicted". -/
theorem c5_counterexample :
    firstKey (cacheSet [("a", ⟨0, 10⟩), ("b", (⟨0, 10⟩ : CacheEntry Nat))] "a" 1 10 0 100) =
      some "a" ∧
    mapGet (cacheSet (cacheSet [("a", ⟨0, 10⟩), ("b", (⟨0, 10⟩ : CacheEntry Nat))] "a" 1 10 0 100)
        "c" 2 10 0 2) "a" = none ∧
    mapGet (cacheSet (cacheSet [("a", ⟨0, 10⟩), ("b", (⟨0, 10⟩ : CacheEntry Nat))] "a" 1 10 0 100)
        "c" 2 10 0 2) "b" = some ⟨0, 10⟩ := by
  refine ⟨by decide, by decide, by decide⟩

/-- Claim C1: for every request executed through the engine, any failure —
fetch rejection/abort/timeout (`FetchOutcome.reject`), non-OK HTTP status,
payload classified as an application error, or parse failure (all of which
surface as `requestCompute _ _ = .error e`) — is caught inside the engine:
the call resolves to `null`, the error is recorded for the call, and
`messageState.error` is set to it.  No exception propagates to the caller:
`requestSettle` is a total function into plain values, the `Except.error`
being consumed right here. -/
theorem c1_request_failure_caught :
    ∀ (name : String) (useCache : Bool) (meta : RequestMeta)
      (outcome : FetchOutcome) (st : EngineState) (key : String) (now : Nat)
      (e : JsError), requestCompute outcome meta = .error e →
      (requestSettle name useCache meta outcome st key now).1 = .vnull ∧
      (requestSettle name useCache meta outcome st key now).2.1 = some e ∧
      (requestSettle name useCache meta outcome st key now).2.2.messageState.error = some e := by
  intro name useCache meta outcome st key now e h
  unfold requestSettle
  rw [h]
  refine ⟨rfl, rfl, ?_⟩
  by_cases hd : meta.dedupe <;> simp [hd]

/-- Witness for C1: a 500 response with a non-JSON body is classified as an
HTTP error, and the engine returns `null` while recording the thrown error
in `messageState.error`. -/
theorem c1_request_failure_caught_witness :
    requestCompute (.resolve ⟨false, 500, "", "x", none⟩) {} =
      .error (.thrown (.vstr "x")) ∧
    (requestSettle "docs" false {} (.resolve ⟨false, 500, "", "x", none⟩) {} "k" 0).1 = .vnull ∧
    (requestSettle "docs" false {} (.resolve ⟨false, 500, "", "x", none⟩) {} "k" 0).2.1 =
      some (.thrown (.vstr "x")) ∧
    (requestSettle "docs" false {} (.resolve ⟨false, 500, "", "x", none⟩) {} "k" 0).2.2.messageState.error =
      some (.thrown (.vstr "x")) :=
  ⟨rfl,
   (c1_request_failure_caught "docs" false {} (.resolve ⟨false, 500, "", "x", none⟩) {} "k" 0
      (.thrown (.vstr "x")) rfl).1,
   (c1_request_failure_caught "docs" false {} (.resolve ⟨false, 500, "", "x", none⟩) {} "k" 0
      (.thrown (.vstr "x")) rfl).2.1,
   (c1_request_failure_caught "docs" false {} (.resolve ⟨false, 500, "", "x", none⟩) {} "k" 0
      (.thrown (.vstr "x")) rfl).2.2⟩

/-- Claim C2 (amended): endpoints registered via `get` default to
de-duplication *and* caching; endpoints registered via `del` default to
de-duplication but `del` invokes `request` with `useCache = false`, so
DELETE requests never read or write the cache; endpoints registered via
`post`/`put`/`patch` use neither the cache nor de-duplication.  With dedupe
on, a second identical concurrent call joins the pending one; with dedupe
off (all writes), every call starts its own physical request and leaves the
pending registry untouched, so two concurrent write calls — with distinct
bodies or not — never share one outcome. -/
theorem c2_cache_dedupe_defaults_amended :
    ((getEndpointConfig {}).useCache = true ∧ (getEndpointConfig {}).dedupe = true) ∧
    ((delEndpointConfig {}).useCache = false ∧ (delEndpointConfig {}).dedupe = true) ∧
    (∀ m : String, (writeEndpointConfig m).useCache = false ∧
      (writeEndpointConfig m).dedupe = false) ∧
    (∀ (name : String) (params : Option JSValue) (useSWR : Bool)
        (meta : RequestMeta) (st : EngineState) (now fresh pid : Nat)
        (useCache : Bool), meta.dedupe = true →
      (useCache = false ∨
        (cacheGet st.cacheStore (requestKey name params meta) now).1 = none) →
      mapGet st.pendingRequests (requestKey name params meta) = some pid →
      (requestBegin name useCache params useSWR meta st now fresh).1 = .shared pid) ∧
    (∀ (name : String) (params : Option JSValue) (m : String)
        (key : Option String) (st : EngineState) (now fresh : Nat),
      (requestBegin name (writeEndpointConfig m).useCache params
          (writeEndpointConfig m).useSWR (callMeta (writeEndpointConfig m) key)
          st now fresh).1 = .started fresh ∧
      (requestBegin name (writeEndpointConfig m).useCache params
          (writeEndpointConfig m).useSWR (callMeta (writeEndpointConfig m) key)
          st now fresh).2.pendingRequests = st.pendingRequests) := by
  refine ⟨⟨rfl, rfl⟩, ⟨rfl, rfl⟩, fun m => ⟨rfl, rfl⟩, ?_, ?_⟩
  · intro name params useSWR meta st now fresh pid useCache hd hcache hpend
    cases useCache with
    | false =>
      simp [requestBegin, requestDispatch, hd, hpend]
    | true =>
      rcases hcache with h | h
      · exact absurd h (by simp)
      · rcases hc : cacheGet st.cacheStore (requestKey name params meta) now with ⟨o, store'⟩
        rw [hc] at h
        subst h
        simp [requestBegin, hc, requestDispatch, hd, hpend]
  · intro name params m key st now fresh
    constructor <;>
      simp [requestBegin, requestDispatch, writeEndpointConfig, callMeta]

/-- Witness for C2 (amended): a pending DELETE under key `K` is joined by a
second identical DELETE call, and a concurrent POST on a state with a
pending entry still starts its own request without touching the registry. -/
theorem c2_cache_dedupe_defaults_amended_witness :
    ((callMeta (delEndpointConfig {}) (some "K")).dedupe = true ∧
      mapGet ({ pendingRequests := [("K", 7)] } : EngineState).pendingRequests
        (requestKey "rooms" none (callMeta (delEndpointConfig {}) (some "K"))) = some 7 ∧
      (requestBegin "rooms" false none false (callMeta (delEndpointConfig {}) (some "K"))
        { pendingRequests := [("K", 7)] } 0 9).1 = .shared 7) ∧
    (requestBegin "rooms" (writeEndpointConfig "POST").useCache none
        (writeEndpointConfig "POST").useSWR (callMeta (writeEndpointConfig "POST") none)
        { pendingRequests := [("K", 7)] } 0 9).1 = .started 9 :=
  ⟨⟨rfl, rfl,
    c2_cache_dedupe_defaults_amended.2.2.2.1 "rooms" none false
      (callMeta (delEndpointConfig {}) (some "K")) { pendingRequests := [("K", 7)] }
      0 9 7 false rfl (Or.inl rfl) rfl⟩,
   (c2_cache_dedupe_defaults_amended.2.2.2.2 "rooms" none "POST" none
      { pendingRequests := [("K", 7)] } 0 9).1⟩

/-- Counterexample to claim C2 as stated: `del` registers a callable that
invokes `request` with `useCache = false`, so even when the cache holds a
fresh entry under the request's key, a DELETE call starts a network request
instead of returning the cached value — DELETE endpoints are not cacheable. -/
theorem c2_counterexample :
    (delEndpointConfig {}).useCache = false ∧
    (cacheGet ({ cacheStore := [("K", ⟨.vstr "v", 100⟩)] } : EngineState).cacheStore "K" 0).1 =
      some (.vstr "v") ∧
    (requestBegin "rooms" (delEndpointConfig {}).useCache none
        (delEndpointConfig {}).useSWR (callMeta (delEndpointConfig {}) (some "K"))
        { cacheStore := [("K", ⟨.vstr "v", 100⟩)] } 0 1).1 = .started 1 :=
  ⟨rfl, rfl, rfl⟩

theorem delayList_succ (delay backoff attempt k : Nat) :
    (List.range (k + 1)).map (fun i => delay * backoff ^ (attempt + i)) =
      delay * backoff ^ attempt ::
        (List.range k).map (fun i => delay * backoff ^ (attempt + 1 + i)) := by
  rw [List.range_succ_eq_map, List.map_cons, List.map_map]
  refine congrArg₂ List.cons ?_ ?_
  · show delay * backoff ^ (attempt + 0) = delay * backoff ^ attempt
    rw [Nat.add_zero]
  · apply List.map_congr_left
    intro i _
    show delay * backoff ^ (attempt + (i + 1)) = delay * backoff ^ (attempt + 1 + i)
    have harith : attempt + (i + 1) = attempt + 1 + i := by omega
    rw [harith]

theorem withRetryFrom_success (outcomes : Nat → AttemptOutcome)
    (delay backoff : Nat) :
    ∀ (k attempt remaining : Nat) (v : JSValue), k ≤ remaining →
      (∀ i, i < k → ∃ e, attemptEval (outcomes (attempt + i)) = .error e) →
      attemptEval (outcomes (attempt + k)) = .ok v →
      withRetryFrom outcomes delay backoff attempt remaining =
        (.ok v, (List.range k).map (fun i => delay * backoff ^ (attempt + i))) := by
  intro k
  induction k with
  | zero =>
    intro attempt remaining v _ _ hok
    rw [Nat.add_zero] at hok
    cases remaining with
    | zero => simp [withRetryFrom, hok]
    | succ rem => simp [withRetryFrom, hok]
  | succ k ih =>
    intro attempt remaining v hle hfail hok
    cases remaining with
    | zero => omega
    | succ rem =>
      obtain ⟨e, he⟩ := hfail 0 (Nat.succ_pos k)
      rw [Nat.add_zero] at he
      have hfail' : ∀ i, i < k → ∃ e, attemptEval (outcomes (attempt + 1 + i)) = .error e := by
        intro i hi
        obtain ⟨e', he'⟩ := hfail (i + 1) (by omega)
        exact ⟨e', by rw [show attempt + 1 + i = attempt + (i + 1) by omega]; exact he'⟩
      have hok' : attemptEval (outcomes (attempt + 1 + k)) = .ok v := by
        rw [show attempt + 1 + k = attempt + (k + 1) by omega]; exact hok
      have hrec := ih (attempt + 1) rem v (by omega) hfail' hok'
      simp only [withRetryFrom, he, hrec, delayList_succ delay backoff attempt k]

theorem withRetryFrom_exhaust (outcomes : Nat → AttemptOutcome)
    (delay backoff : Nat) :
    ∀ (remaining attempt : Nat) (e : JsError),
      (∀ i, i < remaining → ∃ e', attemptEval (outcomes (attempt + i)) = .error e') →
      attemptEval (outcomes (attempt + remaining)) = .error e →
      withRetryFrom outcomes delay backoff attempt remaining =
        (.error e, (List.range remaining).map (fun i => delay * backoff ^ (attempt + i))) := by
  intro remaining
  induction remaining with
  | zero =>
    intro attempt e _ hlast
    rw [Nat.add_zero] at hlast
    simp [withRetryFrom, hlast]
  | succ rem ih =>
    intro attempt e hfail hlast
    obtain ⟨e0, he0⟩ := hfail 0 (Nat.succ_pos rem)
    rw [Nat.add_zero] at he0
    have hfail' : ∀ i, i < rem → ∃ e', attemptEval (outcomes (attempt + 1 + i)) = .error e' := by
      intro i hi
      obtain ⟨e', he'⟩ := hfail (i + 1) (by omega)
      exact ⟨e', by rw [show attempt + 1 + i = attempt + (i + 1) by omega]; exact he'⟩
    have hlast' : attemptEval (outcomes (attempt + 1 + rem)) = .error e := by
      rw [show attempt + 1 + rem = attempt + (rem + 1) by omega]; exact hlast
    have hrec := ih (attempt + 1) e hfail' hlast'
    simp only [withRetryFrom, he0, hrec, delayList_succ delay backoff attempt rem]

/-- Claim C7: `withRetry(fn, {retries, delay, backoff})` retries exactly
when a call's result is `null` with an error recorded for that call (or the
call threw), waiting `delay * backoff ^ attempt` before retry `attempt + 1`;
it performs at most `retries` additional attempts and re-raises the last
recorded error after exhausting them; and a `fn` failing twice then
succeeding under `retries = 3` returns the success value after exactly two
delayed retries with delays `d` and `d * b`. -/
theorem c7_withRetry :
    (∀ (outcomes : Nat → AttemptOutcome) (retries delay backoff k : Nat)
        (v : JSValue), k ≤ retries →
      (∀ i, i < k → ∃ e, attemptEval (outcomes i) = .error e) →
      attemptEval (outcomes k) = .ok v →
      withRetry outcomes retries delay backoff =
        (.ok v, (List.range k).map (fun i => delay * backoff ^ i))) ∧
    (∀ (outcomes : Nat → AttemptOutcome) (retries delay backoff : Nat)
        (e : JsError),
      (∀ i, i < retries → ∃ e', attemptEval (outcomes i) = .error e') →
      attemptEval (outcomes retries) = .error e →
      withRetry outcomes retries delay backoff =
        (.error e, (List.range retries).map (fun i => delay * backoff ^ i))) ∧
    (∀ (d b : Nat) (e : JsError),
      withRetry (fun i => if i < 2 then .settles .vnull (some e)
                          else .settles (.vstr "ok") none) 3 d b =
        (.ok (.vstr "ok"), [d, d * b])) := by
  refine ⟨?_, ?_, ?_⟩
  · intro outcomes retries delay backoff k v hk hfail hok
    have := withRetryFrom_success outcomes delay backoff k 0 retries v hk
      (by simpa using hfail) (by simpa using hok)
    simpa [withRetry] using this
  · intro outcomes retries delay backoff e hfail hlast
    have := withRetryFrom_exhaust outcomes delay backoff retries 0 e
      (by simpa using hfail) (by simpa using hlast)
    simpa [withRetry] using this
  · intro d b e
    have := withRetryFrom_success
      (fun i => if i < 2 then .settles .vnull (some e) else .settles (.vstr "ok") none)
      d b 2 0 3 (.vstr "ok") (by omega)
      (fun i hi => ⟨e, by interval_cases i <;> rfl⟩) rfl
    have hlist : (List.range 2).map (fun i => d * b ^ (0 + i)) = [d, d * b] := by
      rw [show List.range 2 = [0, 1] from rfl]
      simp
    rw [withRetry, this, hlist]

/-- Witness for C7: with `d = 5`, `b = 2` and a network error recorded on
the first two calls, `withRetry` returns the third call's success after
delays `[5, 10]`. -/
theorem c7_withRetry_witness :
    withRetry (fun i => if i < 2 then .settles .vnull (some (.fetchReject "boom"))
                        else .settles (.vstr "ok") none) 3 5 2 =
      (.ok (.vstr "ok"), [5, 5 * 2]) :=
  c7_withRetry.2.2 5 2 (.fetchReject "boom")

/-- Claim C10: when the promise observed by `withRetry` resolves to `null`
but no error was recorded for that exact promise object in
`errorByPromise` (for example because `fn` wrapped the endpoint call in a
new promise instead of returning it directly), `withRetry` returns `null`
immediately as a success: zero retries, zero delays, nothing thrown. -/
theorem c10_withRetry_null_without_recorded_error :
    ∀ (outcomes : Nat → AttemptOutcome) (retries delay backoff : Nat),
      outcomes 0 = .settles .vnull none →
      withRetry outcomes retries delay backoff = (.ok .vnull, []) := by
  intro outcomes retries delay backoff h
  have hok : attemptEval (outcomes 0) = .ok .vnull := by rw [h]; rfl
  have := withRetryFrom_success outcomes delay backoff 0 0 retries .vnull
    (Nat.zero_le _) (fun i hi => absurd hi (Nat.not_lt_zero i)) hok
  simpa [withRetry] using this

/-- Witness for C10: a `fn` resolving to `null` with nothing recorded for
its promise makes `withRetry` return `null` at once. -/
theorem c10_withRetry_null_without_recorded_error_witness :
    withRetry (fun _ => .settles .vnull none) 3 1000 2 = (.ok .vnull, []) :=
  c10_withRetry_null_without_recorded_error (fun _ => .settles .vnull none)
    3 1000 2 rfl

/-- The inductive invariant of one polling loop: at most one invocation in
flight, exactly when the guard is set. -/
def PollInv (s : PollState) : Prop :=
  s.active ≤ 1 ∧ (s.inFlight = true ↔ s.active = 1)

theorem pollStep_inv {s : PollState} (h : PollInv s) (e : PollEvent) :
    PollInv (pollStep s e) := by
  obtain ⟨hle, hiff⟩ := h
  cases e with
  | tick =>
    by_cases hf : s.inFlight = true
    · simpa [pollStep, hf] using ⟨hle, hiff⟩
    · have hne : ¬ s.active = 1 := fun h1 => hf (hiff.mpr h1)
      have h0 : s.active = 0 := by omega
      simp only [Bool.not_eq_true] at hf
      simp [pollStep, hf, PollInv, h0]
  | settle =>
    by_cases h0 : s.active = 0
    · simpa [pollStep, h0] using ⟨hle, hiff⟩
    · have h1 : s.active = 1 := by omega
      simp only [pollStep, if_neg h0]
      constructor
      · show s.active - 1 ≤ 1
        omega
      · show (false = true) ↔ s.active - 1 = 1
        simp [h1]

theorem pollRun_inv (evs : List PollEvent) : PollInv (pollRun evs) := by
  have hinit : PollInv ⟨false, 0⟩ := ⟨by decide, by decide⟩
  rw [pollRun]
  generalize hs : (⟨false, 0⟩ : PollState) = s₀
  rw [hs] at hinit
  clear hs
  induction evs generalizing s₀ with
  | nil => simpa using hinit
  | cons e evs ih => exact ih (pollStep s₀ e) (pollStep_inv hinit e)

/-- Claim C8: a polling loop started with `poll` never has two of its own
endpoint invocations in flight at the same time — along any sequence of
tick and settle events the number of in-flight invocations stays at most
one — because an interval tick that finds the previous invocation still in
flight returns without invoking the endpoint (the skipped tick leaves the
state untouched). -/
theorem c8_poll_no_overlap :
    (∀ evs : List PollEvent, (pollRun evs).active ≤ 1) ∧
    (∀ s : PollState, s.inFlight = true → pollStep s .tick = s) := by
  constructor
  · intro evs
    exact (pollRun_inv evs).1
  · intro s h
    simp [pollStep, h]

/-- Witness for C8: after an immediate tick, a second tick arriving before
the settle is skipped (one invocation in flight), and the in-flight count
along `tick, tick, settle, tick` never exceeds one. -/
theorem c8_poll_no_overlap_witness :
    (pollRun [.tick, .tick, .settle, .tick]).active ≤ 1 ∧
    ((⟨true, 1⟩ : PollState).inFlight = true ∧
      pollStep ⟨true, 1⟩ .tick = ⟨true, 1⟩) :=
  ⟨c8_poll_no_overlap.1 [.tick, .tick, .settle, .tick],
   rfl, c8_poll_no_overlap.2 ⟨true, 1⟩ rfl⟩

/-- Claim C9: registering a second endpoint under an already-registered
name throws a TypeError, because the first registration defined a
non-configurable, non-writable property on the `api` object; the original
callable is never overwritten (the failed call leaves the object with the
first callable).  All of `get`/`post`/`put`/`patch`/`del` register through
the same `defineEndpoint`, and each registration passes a fresh function
object, so the two descriptors always differ. -/
theorem c9_reregistration_type_error :
    ∀ (api : JsMap PropertyDesc) (name : String) (f g : Nat),
      mapGet api name = none → g ≠ f →
      ∃ api', defineEndpoint api name f = .ok api' ∧
        mapGet api' name =
          some { value := f, writable := false, enumerable := true, configurable := false } ∧
        defineEndpoint api' name g = .error "TypeError" := by
  intro api name f g habs hgf
  refine ⟨mapSet api name ⟨f, false, true, false⟩, ?_, ?_, ?_⟩
  · simp [defineEndpoint, defineProperty, habs]
  · exact mapGet_mapSet_self api name _
  · have hget := mapGet_mapSet_self api name
      (⟨f, false, true, false⟩ : PropertyDesc)
    simp only [defineEndpoint, defineProperty, hget]
    rw [if_neg (by simp), if_neg (by simp), if_neg]
    intro hEq
    exact hgf (congrArg PropertyDesc.value hEq)

/-- Witness for C9: registering `docs` twice on an empty `api` — the second
registration throws, the first callable survives. -/
theorem c9_reregistration_type_error_witness :
    mapGet ([] : JsMap PropertyDesc) "docs" = none ∧ (2 : Nat) ≠ 1 ∧
    ∃ api', defineEndpoint [] "docs" 1 = .ok api' ∧
      mapGet api' "docs" =
        some { value := 1, writable := false, enumerable := true, configurable := false } ∧
      defineEndpoint api' "docs" 2 = .error "TypeError" :=
  ⟨rfl, by decide, c9_reregistration_type_error [] "docs" 1 2 rfl (by decide)⟩

theorem jsWalkEntries_eq_map (kvs : List (String × JSValue)) :
    jsWalkEntries kvs = kvs.map (fun p => (p.1, jsWalk p.2, p.2.isUndef)) := by
  induction kvs with
  | nil => simp [jsWalkEntries]
  | cons p rest ih =>
    obtain ⟨k, v⟩ := p
    simp [jsWalkEntries, ih]

theorem sortedKeys_strict (l : List (String × String × Bool))
    (hs : l.Sorted (fun a b => a.1 ≤ b.1)) (hnd : (l.map Prod.fst).Nodup) :
    l.Sorted (fun a b => a.1 < b.1) := by
  have hne : l.Pairwise (fun a b => a.1 ≠ b.1) := by
    rw [List.Nodup, List.pairwise_map] at hnd
    exact hnd
  exact (hs.and hne).imp (fun h => lt_of_le_of_ne h.1 h.2)

theorem sortedKeys_eq_of_perm (l₁ l₂ : List (String × String × Bool))
    (hperm : l₁.Perm l₂) (hnd : (l₁.map Prod.fst).Nodup) :
    l₁.insertionSort (fun a b => a.1 ≤ b.1) =
      l₂.insertionSort (fun a b => a.1 ≤ b.1) := by
  haveI htot : IsTotal (String × String × Bool) (fun a b => a.1 ≤ b.1) :=
    ⟨fun a b => le_total a.1 b.1⟩
  haveI htrans : IsTrans (String × String × Bool) (fun a b => a.1 ≤ b.1) :=
    ⟨fun a b c hab hbc => le_trans hab hbc⟩
  haveI hanti : IsAntisymm (String × String × Bool) (fun a b => a.1 < b.1) :=
    ⟨fun a b hab hba => absurd (lt_trans hab hba) (lt_irrefl _)⟩
  have hp : (l₁.insertionSort (fun a b => a.1 ≤ b.1)).Perm
      (l₂.insertionSort (fun a b => a.1 ≤ b.1)) :=
    ((l₁.perm_insertionSort _).trans hperm).trans (l₂.perm_insertionSort _).symm
  have hnd₁ : ((l₁.insertionSort (fun a b => a.1 ≤ b.1)).map Prod.fst).Nodup :=
    (((l₁.perm_insertionSort (fun a b => a.1 ≤ b.1)).map Prod.fst).nodup_iff).mpr hnd
  have hnd₂ : ((l₂.insertionSort (fun a b => a.1 ≤ b.1)).map Prod.fst).Nodup :=
    ((hp.map Prod.fst).nodup_iff).mp hnd₁
  exact List.eq_of_perm_of_sorted hp
    (sortedKeys_strict _ (List.sorted_insertionSort _ l₁) hnd₁)
    (sortedKeys_strict _ (List.sorted_insertionSort _ l₂) hnd₂)

theorem jsWalk_vobj_perm (kvs₁ kvs₂ : List (String × JSValue))
    (hperm : kvs₁.Perm kvs₂) (hnd : (kvs₁.map Prod.fst).Nodup) :
    jsWalk (.vobj kvs₁) = jsWalk (.vobj kvs₂) := by
  have f := fun p : String × JSValue => (p.1, jsWalk p.2, p.2.isUndef)
  have hkept : ((kvs₁.map (fun p => (p.1, jsWalk p.2, p.2.isUndef))).filter
      (fun e => !e.2.2)).Perm
      ((kvs₂.map (fun p => (p.1, jsWalk p.2, p.2.isUndef))).filter (fun e => !e.2.2)) :=
    (hperm.map _).filter _
  have hndkept : (((kvs₁.map (fun p => (p.1, jsWalk p.2, p.2.isUndef))).filter
      (fun e => !e.2.2)).map Prod.fst).Nodup := by
    have hsub : ((kvs₁.map (fun p => (p.1, jsWalk p.2, p.2.isUndef))).filter
        (fun e => !e.2.2)).Sublist (kvs₁.map (fun p => (p.1, jsWalk p.2, p.2.isUndef))) :=
      List.filter_sublist _
    have hmapeq : ((kvs₁.map (fun p => (p.1, jsWalk p.2, p.2.isUndef))).map Prod.fst) =
        kvs₁.map Prod.fst := by
      rw [List.map_map]
      rfl
    have : ((kvs₁.map (fun p => (p.1, jsWalk p.2, p.2.isUndef))).map Prod.fst).Nodup := by
      rw [hmapeq]; exact hnd
    exact this.sublist (hsub.map Prod.fst)
  have hsorted := sortedKeys_eq_of_perm _ _ hkept hndkept
  simp only [jsWalk, jsWalkEntries_eq_map]
  rw [hsorted]

/-- Claim C3: cache/request keys are deterministic and independent of the
parameter object's key insertion order: two parameter objects holding the
same key/value pairs in different orders yield the same `makeKey`;
`undefined`-valued keys are omitted from the serialization; and a cyclic
reference serializes to the fixed `"[Circular]"` sentinel. -/
theorem c3_key_determinism :
    (∀ (name method : String) (kvs₁ kvs₂ : List (String × JSValue)),
      kvs₁.Perm kvs₂ → (kvs₁.map Prod.fst).Nodup →
      makeKey { name := name, method := method, params := some (.vobj kvs₁) } =
        makeKey { name := name, method := method, params := some (.vobj kvs₂) }) ∧
    (∀ (k : String) (kvs : List (String × JSValue)),
      stableStringify (.vobj ((k, .vundef) :: kvs)) = stableStringify (.vobj kvs)) ∧
    stableStringify .vcircular = "\"[Circular]\"" := by
  refine ⟨?_, ?_, ?_⟩
  · intro name method kvs₁ kvs₂ hperm hnd
    simp only [makeKey, stableStringify, Option.getD_some]
    rw [jsWalk_vobj_perm kvs₁ kvs₂ hperm hnd]
  · intro k kvs
    simp only [stableStringify, jsWalk, jsWalkEntries_eq_map, List.map_cons,
      List.filter_cons]
    rfl
  · simp [stableStringify, jsWalk]

/-- Witness for C3: the two orderings of `{a: 1, b: 2}` produce the same
GET key. -/
theorem c3_key_determinism_witness :
    ([("a", JSValue.vnum 1), ("b", JSValue.vnum 2)]).Perm
      [("b", JSValue.vnum 2), ("a", JSValue.vnum 1)] ∧
    (([("a", JSValue.vnum 1), ("b", JSValue.vnum 2)]).map Prod.fst).Nodup ∧
    makeKey { name := "docs", method := "GET",
              params := some (.vobj [("a", .vnum 1), ("b", .vnum 2)]) } =
      makeKey { name := "docs", method := "GET",
                params := some (.vobj [("b", .vnum 2), ("a", .vnum 1)]) } :=
  ⟨List.Perm.swap ("b", JSValue.vnum 2) ("a", JSValue.vnum 1) [],
   by decide,
   c3_key_determinism.1 "docs" "GET" _ _
     (List.Perm.swap ("b", JSValue.vnum 2) ("a", JSValue.vnum 1) [])
     (by decide)⟩

section UrlLemmas

theorem scanMatches_cons_ne {c : Char} (l : List Char) (h : ¬ c = ':') :
    scanMatches (c :: l) = scanMatches l := by
  rw [scanMatches]
  simp [h]

theorem scanMatches_noColon_append {s : List Char} (t : List Char)
    (h : noColonB s = true) : scanMatches (s ++ t) = scanMatches t := by
  induction s with
  | nil => rfl
  | cons c s ih =>
    simp only [noColonB, List.all_cons, Bool.and_eq_true, bne_iff_ne, ne_eq] at h
    rw [List.cons_append, scanMatches_cons_ne _ h.1]
    exact ih (by simp [noColonB, h.2])

theorem takeWhile_append_all {w : List Char} (x : List Char)
    (h : w.all isWordChar = true) :
    (w ++ x).takeWhile isWordChar = w ++ x.takeWhile isWordChar := by
  induction w with
  | nil => rfl
  | cons c w ih =>
    simp only [List.all_cons, Bool.and_eq_true] at h
    simp [List.takeWhile_cons, h.1, ih h.2]

theorem wordRunB_spec {w : List Char} (h : wordRunB w = true) :
    w ≠ [] ∧ w.all isWordChar = true := by
  simp only [wordRunB, Bool.and_eq_true] at h
  refine ⟨?_, h.2⟩
  intro hw
  rw [hw] at h
  simp at h

theorem scanMatches_colon_cons (x : List Char) :
    scanMatches (':' :: x) =
      if (x.takeWhile isWordChar).isEmpty then scanMatches x
      else (':' :: x.takeWhile isWordChar) ::
        scanMatches (x.drop (x.takeWhile isWordChar).length) := by
  rw [scanMatches]
  simp

theorem scan_template (parts : List (List Char × List Char)) :
    ∀ seg0 : List Char, noColonB seg0 = true → partsCondB parts = true →
    scanMatches (assembleTemplate seg0 parts) =
      parts.map (fun p => ':' :: p.1) := by
  induction parts with
  | nil =>
    intro seg0 hseg _
    rw [assembleTemplate, tailTemplate, List.append_nil,
      show scanMatches seg0 = scanMatches (seg0 ++ []) by rw [List.append_nil],
      scanMatches_noColon_append [] hseg]
    simp [scanMatches]
  | cons p rest ih =>
    intro seg0 hseg hcond
    obtain ⟨w, s⟩ := p
    simp only [partsCondB, Bool.and_eq_true] at hcond
    obtain ⟨⟨⟨hw, hs⟩, hsep⟩, hrest⟩ := hcond
    obtain ⟨hwne, hwall⟩ := wordRunB_spec hw
    rw [assembleTemplate, tailTemplate, scanMatches_noColon_append _ hseg]
    have htail : (s ++ tailTemplate rest).takeWhile isWordChar = [] := by
      rcases hsc : s with _ | ⟨c, s2⟩
      · have hre : rest = [] := by
          by_cases hre : rest.isEmpty
          · simpa using hre
          · rw [if_neg hre, hsc] at hsep
            simp [headNotWordB] at hsep
        rw [hre]
        rfl
      · have hhead : isWordChar c = false := by
          have hnw : headNotWordB s = true := by
            by_cases hre : rest.isEmpty
            · rw [if_pos hre] at hsep
              rcases (Bool.or_eq_true _ _).mp hsep with h1 | h1
              · rw [hsc] at h1
                simp at h1
              · exact h1
            · rw [if_neg hre] at hsep
              exact hsep
          rw [hsc] at hnw
          simpa [headNotWordB] using hnw
        simp [List.takeWhile_cons, hhead]
    have htake : (w ++ (s ++ tailTemplate rest)).takeWhile isWordChar = w := by
      rw [takeWhile_append_all _ hwall, htail, List.append_nil]
    rw [show (':' :: (w ++ s ++ tailTemplate rest)) =
        (':' :: (w ++ (s ++ tailTemplate rest))) by rw [List.append_assoc]]
    rw [scanMatches_colon_cons, htake]
    have hwe : w.isEmpty = false := by
      cases w with
      | nil => exact absurd rfl hwne
      | cons _ _ => rfl
    rw [if_neg (by simp [hwe]), List.drop_left w,
      show scanMatches (s ++ tailTemplate rest) = rest.map (fun p => ':' :: p.1)
        from ih s hs hrest]
    rfl

theorem cleanBefore_nil (m : List Char) : CleanBefore [] m := by
  intro a b heq
  simp only [List.nil_append] at heq
  have := congrArg List.length heq
  simp only [List.length_append] at this
  have hb : b.length = 0 := by omega
  exact List.length_eq_zero.mp hb

theorem noColonB_head {c : Char} {s : List Char} (h : noColonB (c :: s) = true) :
    ¬ c = ':' ∧ noColonB s = true := by
  simp only [noColonB, List.all_cons, Bool.and_eq_true, bne_iff_ne, ne_eq] at h
  exact ⟨h.1, by simp [noColonB, h.2]⟩

theorem noColonB_append {s t : List Char} (hs : noColonB s = true)
    (ht : noColonB t = true) : noColonB (s ++ t) = true := by
  simp only [noColonB, List.all_append, Bool.and_eq_true]
  exact ⟨hs, ht⟩

theorem noColonB_of_words {w : List Char} (h : w.all isWordChar = true) :
    noColonB w = true := by
  simp only [List.all_eq_true] at h
  simp only [noColonB, List.all_eq_true, bne_iff_ne, ne_eq]
  intro c hc hceq
  subst hceq
  exact absurd (h _ hc) (by decide)

theorem cleanBefore_prepend (s : List Char) :
    ∀ (X wstar : List Char), noColonB s = true →
      CleanBefore X (':' :: wstar) → CleanBefore (s ++ X) (':' :: wstar) := by
  induction s with
  | nil =>
    intro X wstar _ h
    simpa using h
  | cons c s ih =>
    intro X wstar hnc h
    obtain ⟨hc, hs⟩ := noColonB_head hnc
    intro a b heq
    cases a with
    | nil =>
      rw [List.nil_append] at heq
      rw [show ((c :: s) ++ X) ++ (':' :: wstar) = c :: ((s ++ X) ++ (':' :: wstar))
        by simp] at heq
      rw [show (':' :: wstar) ++ b = ':' :: (wstar ++ b) by simp] at heq
      exact absurd (List.cons.inj heq).1 hc
    | cons a0 a' =>
      rw [show ((c :: s) ++ X) ++ (':' :: wstar) = c :: ((s ++ X) ++ (':' :: wstar))
        by simp] at heq
      rw [show (a0 :: a') ++ (':' :: wstar) ++ b = a0 :: (a' ++ (':' :: wstar) ++ b)
        by simp] at heq
      obtain ⟨_, htail⟩ := List.cons.inj heq
      exact ih X wstar hs h a' b htail

theorem take_eq_of_append_eq_append {x y u v : List Char}
    (heq : x ++ y = u ++ v) (hlen : x.length ≤ u.length) :
    x = u.take x.length := by
  have := congrArg (List.take x.length) heq
  rwa [List.take_left' rfl, List.take_append_of_le_length hlen] at this

theorem cleanBefore_flatSteps (steps : List (StepKind × List Char)) :
    ∀ (wstar : List Char), wordRunB wstar = true →
      (∀ st ∈ steps, stepClean wstar st) →
      CleanBefore (flatSteps steps) (':' :: wstar) := by
  induction steps with
  | nil =>
    intro wstar _ _
    exact cleanBefore_nil _
  | cons st rest ih =>
    intro wstar hw hclean
    obtain ⟨kind, seg⟩ := st
    have hst := hclean _ (List.mem_cons_self _ _)
    have hrest : ∀ st ∈ rest, stepClean wstar st :=
      fun st h => hclean st (List.mem_cons_of_mem _ h)
    have hX : CleanBefore (flatSteps rest) (':' :: wstar) := ih wstar hw hrest
    cases kind with
    | encoded e =>
      obtain ⟨hseg, henc⟩ := hst
      exact cleanBefore_prepend (e ++ seg) (flatSteps rest) wstar
        (noColonB_append henc hseg) hX
    | rawWord w =>
      obtain ⟨hseg, hword, hnpre, hhead⟩ := hst
      obtain ⟨hwne, hwall⟩ := wordRunB_spec hword
      obtain ⟨hwsne, hwsall⟩ := wordRunB_spec hw
      intro a b heq
      rw [show flatSteps ((StepKind.rawWord w, seg) :: rest) =
        ':' :: (w ++ (seg ++ flatSteps rest)) by simp [flatSteps, stepChars]] at heq
      cases a with
      | nil =>
        simp only [List.nil_append, List.cons_append, List.append_assoc] at heq
        obtain ⟨-, htail⟩ := List.cons.inj heq
        by_cases hlen : wstar.length ≤ w.length
        · have hpre : wstar = w.take wstar.length := by
            have h2 := take_eq_of_append_eq_append htail.symm
              (by simpa using hlen)
            exact h2
          exact absurd (hpre ▸ List.take_prefix wstar.length w) hnpre
        · have hwtake : w = wstar.take w.length := by
            have h2 := take_eq_of_append_eq_append htail (by omega)
            exact h2
          have hsplit : wstar = w ++ wstar.drop w.length := by
            conv_lhs => rw [← List.take_append_drop w.length wstar]
            rw [← hwtake]
          have hene : wstar.drop w.length ≠ [] := by
            have : (wstar.drop w.length).length = wstar.length - w.length := by
              simp
            intro hnil
            rw [hnil] at this
            simp at this
            omega
          obtain ⟨e0, e', he⟩ := List.exists_cons_of_ne_nil hene
          have he0mem : e0 ∈ wstar := by
            rw [hsplit, he]
            exact List.mem_append_right _ (List.mem_cons_self _ _)
          have he0w : isWordChar e0 = true := by
            simp only [List.all_eq_true] at hwsall
            exact hwsall e0 he0mem
          rw [hsplit, he] at htail
          have htail3 : w ++ (seg ++ (flatSteps rest ++ ':' :: (w ++ e0 :: e'))) =
              w ++ ((e0 :: e') ++ b) := by
            rw [htail, List.append_assoc]
          have htail2 : seg ++ (flatSteps rest ++ ':' :: (w ++ e0 :: e')) =
              (e0 :: e') ++ b := List.append_cancel_left htail3
          cases hsegc : seg with
          | nil =>
            rw [hsegc] at hhead
            simp [headNotWordB] at hhead
          | cons c seg' =>
            rw [hsegc] at htail2
            simp only [List.cons_append] at htail2
            obtain ⟨hce, -⟩ := List.cons.inj htail2
            rw [hsegc] at hhead
            simp only [headNotWordB, Bool.not_eq_true'] at hhead
            rw [hce] at hhead
            rw [he0w] at hhead
            exact absurd hhead (by decide)
      | cons a0 a' =>
        simp only [List.cons_append, List.append_assoc] at heq
        obtain ⟨-, htail⟩ := List.cons.inj heq
        have hcb : CleanBefore ((w ++ seg) ++ flatSteps rest) (':' :: wstar) :=
          cleanBefore_prepend (w ++ seg) (flatSteps rest) wstar
            (noColonB_append (noColonB_of_words hwall) hseg) hX
        apply hcb a' b
        simp only [List.cons_append, List.append_assoc]
        exact htail

theorem hexUpper_ne_colon {n : Nat} (h : n < 16) : ¬ hexUpper n = ':' := by
  interval_cases n <;> decide

theorem noColonB_encodeChar (c : Char) : noColonB (encodeChar c) = true := by
  rw [encodeChar]
  by_cases hu : isUnreservedURI c = true
  · rw [if_pos hu]
    simp only [noColonB, List.all_cons, List.all_nil, Bool.and_true, bne_iff_ne, ne_eq]
    intro hc
    subst hc
    exact absurd hu (by decide)
  · rw [if_neg hu]
    generalize utf8Bytes c = bs
    induction bs with
    | nil => rfl
    | cons b bs ih =>
      simp only [List.foldr_cons]
      apply noColonB_append _ ih
      simp only [percentByte, noColonB, List.all_cons, List.all_nil, Bool.and_true,
        Bool.and_eq_true, bne_iff_ne, ne_eq]
      refine ⟨by decide, ?_, ?_⟩
      · exact hexUpper_ne_colon (Nat.mod_lt _ (by omega))
      · exact hexUpper_ne_colon (Nat.mod_lt _ (by omega))

theorem noColonB_encodeURIComponent (v : String) :
    noColonB (encodeURIComponent v).toList = true := by
  show noColonB ((v.toList.foldr (fun c acc => encodeChar c ++ acc) [])) = true
  induction v.toList with
  | nil => rfl
  | cons c cs ih =>
    simp only [List.foldr_cons]
    exact noColonB_append (noColonB_encodeChar c) ih

theorem replaceFirst_at (P : List Char) :
    ∀ (wstar S rep : List Char),
      CleanBefore P (':' :: wstar) →
      replaceFirst (P ++ (':' :: wstar) ++ S) (':' :: wstar) rep = P ++ rep ++ S := by
  induction P with
  | nil =>
    intro wstar S rep _
    rw [show ([] : List Char) ++ (':' :: wstar) ++ S = ':' :: (wstar ++ S) by simp]
    rw [replaceFirst]
    rw [if_pos ?hpre]
    case hpre =>
      rw [List.isPrefixOf_iff_prefix]
      exact ⟨S, by simp⟩
    simp [List.drop_left]
  | cons c P ih =>
    intro wstar S rep hcb
    have hcbP : CleanBefore P (':' :: wstar) := by
      intro a b heq
      exact hcb (c :: a) b (by simp [heq])
    rw [show ((c :: P) ++ (':' :: wstar) ++ S) = c :: (P ++ (':' :: wstar) ++ S)
      by simp]
    rw [replaceFirst]
    have hnotpre : ¬ ((':' :: wstar).isPrefixOf (c :: (P ++ (':' :: wstar) ++ S)) = true) := by
      intro hpre
      rw [List.isPrefixOf_iff_prefix] at hpre
      obtain ⟨t, ht⟩ := hpre
      have hshape : (':' :: wstar) ++ t = ((c :: P) ++ (':' :: wstar)) ++ S := by
        rw [ht]
        simp
      have hlen : (':' :: wstar).length ≤ ((c :: P) ++ (':' :: wstar)).length := by
        simp only [List.length_append]
        omega
      have htake : (':' :: wstar) = ((c :: P) ++ (':' :: wstar)).take (':' :: wstar).length :=
        take_eq_of_append_eq_append hshape hlen
      have hpre2 : (':' :: wstar) <+: ((c :: P) ++ (':' :: wstar)) := by
        conv_lhs => rw [htake]
        exact List.take_prefix _ _
      obtain ⟨b, hb⟩ := hpre2
      have hbnil : b = [] := hcb [] b (by simpa using hb.symm)
      rw [hbnil, List.append_nil] at hb
      have := congrArg List.length hb
      simp only [List.length_append, List.length_cons] at this
      omega
    rw [if_neg hnotpre]
    rw [ih wstar S rep hcbP]
    simp

theorem flatSteps_append (a b : List (StepKind × List Char)) :
    flatSteps (a ++ b) = flatSteps a ++ flatSteps b := by
  induction a with
  | nil => rfl
  | cons st a ih => simp [flatSteps, ih]

theorem lookupParam_none_keys {ps : List (String × String)} {k : String}
    (h : lookupParam ps k = none) : ∀ kv ∈ ps, ¬ kv.1 = k := by
  intro kv hkv hk
  rw [lookupParam] at h
  cases hf : List.find? (fun p => p.1 == k) ps with
  | some p => rw [hf] at h; simp at h
  | none =>
    rw [List.find?_eq_none] at hf
    exact hf kv hkv (by simp [hk])

theorem lookupParam_deleteParam_ne (ps : List (String × String)) (k k' : String)
    (h : ¬ k' = k) : lookupParam (deleteParam ps k) k' = lookupParam ps k' := by
  induction ps with
  | nil => rfl
  | cons kv ps ih =>
    by_cases hk : kv.1 = k
    · have hne' : (kv.1 == k') = false := by
        simp only [beq_eq_false_iff_ne, ne_eq, hk]
        intro hc
        exact h hc.symm
      rw [show deleteParam (kv :: ps) k = deleteParam ps k by
        simp [deleteParam, List.filter_cons, hk]]
      rw [ih]
      rw [show lookupParam (kv :: ps) k' = lookupParam ps k' by
        simp [lookupParam, List.find?_cons_of_neg, hne']]
    · rw [show deleteParam (kv :: ps) k = kv :: deleteParam ps k by
        simp [deleteParam, List.filter_cons, hk]]
      by_cases hk' : kv.1 = k'
      · simp [lookupParam, List.find?_cons_of_pos, hk']
      · have hne' : (kv.1 == k') = false := by simp [hk']
        rw [show lookupParam (kv :: deleteParam ps k) k' = lookupParam (deleteParam ps k) k' by
          simp [lookupParam, List.find?_cons_of_neg, hne']]
        rw [show lookupParam (kv :: ps) k' = lookupParam ps k' by
          simp [lookupParam, List.find?_cons_of_neg, hne']]
        exact ih

theorem resolveTail_congr (parts : List (List Char × List Char))
    (ps₁ ps₂ : List (String × String))
    (h : ∀ p ∈ parts, lookupParam ps₁ (String.mk p.1) = lookupParam ps₂ (String.mk p.1)) :
    resolveTail ps₁ parts = resolveTail ps₂ parts := by
  induction parts with
  | nil => rfl
  | cons p rest ih =>
    obtain ⟨w, s⟩ := p
    rw [resolveTail, resolveTail,
      show lookupParam ps₁ (String.mk w) = lookupParam ps₂ (String.mk w)
        from h (w, s) (List.mem_cons_self _ _),
      ih (fun p hp => h p (List.mem_cons_of_mem _ hp))]

theorem prefixFreeB_head {w : List Char} {ws : List (List Char)}
    (h : prefixFreeB (w :: ws) = true) :
    (∀ w2 ∈ ws, w.isPrefixOf w2 = false ∧ w2.isPrefixOf w = false) ∧
      prefixFreeB ws = true := by
  simp only [prefixFreeB, Bool.and_eq_true, List.all_eq_true] at h
  refine ⟨fun w2 hw2 => ?_, h.2⟩
  have := h.1 w2 hw2
  simp only [Bool.and_eq_true, Bool.not_eq_true'] at this
  exact this

theorem ne_of_isPrefixOf_eq_false {w w2 : List Char}
    (h : w.isPrefixOf w2 = false) : ¬ w2 = w := by
  intro hc
  subst hc
  rw [show w2.isPrefixOf w2 = true from
    List.isPrefixOf_iff_prefix.mpr (List.prefix_refl w2)] at h
  cases h

theorem not_prefix_of_isPrefixOf_eq_false {w w2 : List Char}
    (h : w.isPrefixOf w2 = false) : ¬ w <+: w2 := by
  intro hc
  rw [← List.isPrefixOf_iff_prefix] at hc
  rw [hc] at h
  cases h

theorem foldl_parseUrlStep_template (parts : List (List Char × List Char)) :
    ∀ (steps : List (StepKind × List Char)) (seg0 : List Char)
      (params : List (String × String)),
      noColonB seg0 = true →
      partsCondB parts = true →
      prefixFreeB (parts.map (fun p => p.1)) = true →
      (∀ wname ∈ parts.map (fun p => p.1), ∀ st ∈ steps, stepClean wname st) →
      (parts.map (fun p => ':' :: p.1)).foldl parseUrlStep
          (seg0 ++ (flatSteps steps ++ tailTemplate parts), params) =
        (seg0 ++ (flatSteps steps ++ resolveTail params parts),
         params.filter (fun kv => !((parts.map (fun p => String.mk p.1)).contains kv.1))) := by
  induction parts with
  | nil =>
    intro steps seg0 params _ _ _ _
    simp only [List.map_nil, List.foldl_nil, tailTemplate, resolveTail]
    refine congrArg₂ Prod.mk rfl ?_
    symm
    rw [List.filter_eq_self]
    intro kv _
    simp
  | cons p rest ih =>
    intro steps seg0 params hseg0 hcond hpf hsteps
    obtain ⟨w, s⟩ := p
    simp only [partsCondB, Bool.and_eq_true] at hcond
    obtain ⟨⟨⟨hw, hs⟩, hsep⟩, hrest⟩ := hcond
    obtain ⟨hwne, hwall⟩ := wordRunB_spec hw
    obtain ⟨hpfhead, hpftail⟩ := prefixFreeB_head (by simpa using hpf)
    have hwmem : w ∈ ((w, s) :: rest).map (fun p => p.1) := by simp
    have hcbP : CleanBefore (seg0 ++ flatSteps steps) (':' :: w) :=
      cleanBefore_prepend seg0 _ w hseg0
        (cleanBefore_flatSteps steps w hw (hsteps w hwmem))
    have hshape : seg0 ++ (flatSteps steps ++ tailTemplate ((w, s) :: rest)) =
        (seg0 ++ flatSteps steps) ++ (':' :: w) ++ (s ++ tailTemplate rest) := by
      simp [tailTemplate, List.append_assoc]
    simp only [List.map_cons, List.foldl_cons]
    have hmemtail : ∀ wname ∈ rest.map (fun p => p.1),
        wname ∈ ((w, s) :: rest).map (fun p => p.1) := by
      intro wname hm
      simp only [List.map_cons]
      exact List.mem_cons_of_mem _ hm
    cases hl : lookupParam params (String.mk w) with
    | some v =>
      have hstep : parseUrlStep
          (seg0 ++ (flatSteps steps ++ tailTemplate ((w, s) :: rest)), params)
          (':' :: w) =
          (seg0 ++ (flatSteps
              (steps ++ [(.encoded (encodeURIComponent v).toList, s)]) ++
            tailTemplate rest),
           deleteParam params (String.mk w)) := by
        simp only [parseUrlStep, List.drop_succ_cons, List.drop_zero, hl]
        rw [hshape,
          replaceFirst_at (seg0 ++ flatSteps steps) w (s ++ tailTemplate rest) _ hcbP]
        rw [flatSteps_append]
        simp [flatSteps, stepChars, List.append_assoc]
      rw [hstep]
      have hlook : ∀ p ∈ rest,
          lookupParam (deleteParam params (String.mk w)) (String.mk p.1) =
            lookupParam params (String.mk p.1) := by
        intro p hp
        apply lookupParam_deleteParam_ne
        intro hc
        have hpw : p.1 = w := by
          have := congrArg String.data hc
          simpa using this
        have hmem : p.1 ∈ rest.map (fun p => p.1) := List.mem_map_of_mem _ hp
        exact ne_of_isPrefixOf_eq_false (hpfhead p.1 hmem).1 hpw
      have hsteps' : ∀ wname ∈ rest.map (fun p => p.1),
          ∀ st ∈ steps ++ [(.encoded (encodeURIComponent v).toList, s)],
            stepClean wname st := by
        intro wname hm st hst
        rcases List.mem_append.mp hst with hst | hst
        · exact hsteps wname (hmemtail wname hm) st hst
        · rw [List.mem_singleton.mp hst]
          exact ⟨hs, noColonB_encodeURIComponent v⟩
      rw [ih (steps ++ [(StepKind.encoded (encodeURIComponent v).toList, s)]) seg0
        (deleteParam params (String.mk w)) hseg0 hrest hpftail hsteps']
      refine congrArg₂ Prod.mk ?_ ?_
      · rw [resolveTail]
        show _ = seg0 ++ (flatSteps steps ++
          ((match lookupParam params (String.mk w) with
            | some v => (encodeURIComponent v).toList
            | none => ':' :: w) ++ s ++ resolveTail params rest))
        rw [hl, flatSteps_append,
          resolveTail_congr rest (deleteParam params (String.mk w)) params hlook]
        simp [flatSteps, stepChars, List.append_assoc]
      · rw [deleteParam, List.filter_filter]
        apply List.filter_congr
        intro kv _
        simp only [List.map_cons, List.contains_cons, Bool.not_or]
        rw [Bool.and_comm]
        rfl
    | none =>
      have hstep : parseUrlStep
          (seg0 ++ (flatSteps steps ++ tailTemplate ((w, s) :: rest)), params)
          (':' :: w) =
          (seg0 ++ (flatSteps (steps ++ [(.rawWord w, s)]) ++ tailTemplate rest),
           params) := by
        simp only [parseUrlStep, List.drop_succ_cons, List.drop_zero, hl]
        rw [flatSteps_append]
        simp [flatSteps, stepChars, tailTemplate, List.append_assoc]
      rw [hstep]
      have hsteps' : ∀ wname ∈ rest.map (fun p => p.1),
          ∀ st ∈ steps ++ [(.rawWord w, s)], stepClean wname st := by
        intro wname hm st hst
        rcases List.mem_append.mp hst with hst | hst
        · exact hsteps wname (hmemtail wname hm) st hst
        · rw [List.mem_singleton.mp hst]
          refine ⟨hs, hw, ?_, ?_⟩
          · exact not_prefix_of_isPrefixOf_eq_false (hpfhead wname hm).2
          · cases hre : rest with
            | nil =>
              rw [hre] at hm
              simp at hm
            | cons q qs =>
              rw [hre] at hsep
              simpa using hsep
      rw [ih (steps ++ [(StepKind.rawWord w, s)]) seg0 params hseg0 hrest hpftail hsteps']
      refine congrArg₂ Prod.mk ?_ ?_
      · rw [resolveTail]
        show _ = seg0 ++ (flatSteps steps ++
          ((match lookupParam params (String.mk w) with
            | some v => (encodeURIComponent v).toList
            | none => ':' :: w) ++ s ++ resolveTail params rest))
        rw [hl, flatSteps_append]
        simp [flatSteps, stepChars, List.append_assoc]
      · apply List.filter_congr
        intro kv hkv
        have hne : ¬ kv.1 = String.mk w := lookupParam_none_keys hl kv hkv
        simp only [List.map_cons, List.contains_cons, Bool.not_or]
        rw [show (kv.1 == String.mk w) = false by simp [hne]]
        simp

end UrlLemmas

/-- Claim C6 (amended): for every URL template decomposed as literal
segments alternating with `:identifier` placeholders — where the literal
segments contain no colon, every segment following a placeholder begins
with a non-word character (the trailing segment may instead be empty), and
no placeholder name is a prefix of another (so each placeholder occurs
once) — and for every parameter object, `parseUrl` replaces every
placeholder having a matching key with the URL-encoded value of that key,
removes that key from the returned remaining parameters, and leaves
placeholders with no matching key unresolved in the output URL.  (Without
these conditions the claim fails: only the first occurrence of a repeated
placeholder is substituted, see the counterexample.) -/
theorem c6_parseUrl_amended :
    ∀ (seg0 : List Char) (parts : List (List Char × List Char))
      (params : List (String × String)),
      noColonB seg0 = true →
      partsCondB parts = true →
      prefixFreeB (parts.map (fun p => p.1)) = true →
      parseUrl (String.mk (assembleTemplate seg0 parts)) params =
        ⟨String.mk (specResolveUrl seg0 parts params),
         params.filter (fun kv => !((parts.map (fun p => String.mk p.1)).contains kv.1))⟩ := by
  intro seg0 parts params hseg hcond hpf
  simp only [parseUrl]
  rw [show (String.mk (assembleTemplate seg0 parts)).toList = assembleTemplate seg0 parts
    from rfl]
  rw [scan_template parts seg0 hseg hcond]
  rw [show assembleTemplate seg0 parts = seg0 ++ (flatSteps [] ++ tailTemplate parts)
    by simp [assembleTemplate, flatSteps]]
  rw [foldl_parseUrlStep_template parts [] seg0 params hseg hcond hpf
    (fun _ _ st hst => absurd hst (List.not_mem_nil st))]
  simp [specResolveUrl, flatSteps]

/-- Witness for C6 (amended): the template `/api/rooms/:id` with
`{id: "a b"}` resolves to `/api/rooms/a%20b` and consumes `id`. -/
theorem c6_parseUrl_amended_witness :
    (noColonB "/api/rooms/".toList = true ∧
      partsCondB [(['i', 'd'], [])] = true ∧
      prefixFreeB ([(['i', 'd'], ([] : List Char))].map (fun p => p.1)) = true) ∧
    parseUrl (String.mk (assembleTemplate "/api/rooms/".toList [(['i', 'd'], [])]))
        [("id", "a b")] =
      ⟨String.mk (specResolveUrl "/api/rooms/".toList [(['i', 'd'], [])] [("id", "a b")]),
       [("id", "a b")].filter
         (fun kv => !(([(['i', 'd'], ([] : List Char))].map (fun p => String.mk p.1)).contains kv.1))⟩ :=
  ⟨⟨by decide, by decide, by decide⟩,
   c6_parseUrl_amended "/api/rooms/".toList [(['i', 'd'], [])] [("id", "a b")]
     (by decide) (by decide) (by decide)⟩

/-- Counterexample to claim C6 as stated: in the template `/x/:id/:id` the
placeholder `:id` occurs twice; the parameter `id` is consumed when the
first occurrence is replaced, so the second occurrence — which also "has a
matching key in the parameters" — is left unresolved: the result is
`/x/5/:id`, not `/x/5/5`. -/
theorem c6_counterexample :
    (parseUrl "/x/:id/:id" [("id", "5")]).finalUrl = "/x/5/:id" ∧
    (parseUrl "/x/:id/:id" [("id", "5")]).remainingParams = [] := by
  have hassem : "/x/:id/:id".toList =
      assembleTemplate ['/', 'x', '/'] [(['i', 'd'], ['/']), (['i', 'd'], [])] := by
    rfl
  have hscan : scanMatches "/x/:id/:id".toList =
      [[':', 'i', 'd'], [':', 'i', 'd']] := by
    rw [hassem, scan_template [(['i', 'd'], ['/']), (['i', 'd'], [])] ['/', 'x', '/']
      (by decide) (by decide)]
    rfl
  constructor
  · simp only [parseUrl]
    rw [hscan]
    rfl
  · simp only [parseUrl]
    rw [hscan]
    rfl

end DataJs
